import Mathlib

/-!
# NoSQL-injection scanner: injection engine

A shallow embedding of `tools/scanning_tool/src.go` and the properties of its
decision procedures, subset enumeration, de-duplication, payload combinators, request
construction and copy, and body and query mutation.

Go strings are Lean `String`s (sequences of runes); the byte-level library
routines (`strings.Split`, `strings.ReplaceAll`, `regexp`) are modelled on the
underlying `List Char`, which agrees with the byte-level behaviour on valid
UTF-8 text.  Slices are lists, channels are the list of values sent in order.
-/

set_option autoImplicit false

namespace NoSQLi

/-! ## Payload catalogue and error signatures -/

def MongoErrorStrings : List String :=
  ["Uncaught MongoDB\\\\Driver\\\\Exception\\\\CommandException: unknown operator",
   "(?i)MongoError",
   "(?i)unterminated string literal"]

def JSSyntaxErrorStrings : List String := ["SyntaxError"]

def MongooseErrorStrings : List String := ["(?i)Cast to string failed for value"]

/-! ## `regexp.MatchString` on the signature tables

Every pattern of the signature tables is a literal text, optionally preceded by
the flag group `(?i)`, in which the only escape is `\\` (a literal backslash).
Matching such a pattern is an unanchored search for the literal. -/

/-- Runes matched by the pattern rune `p` under the flag `(?i)`: the orbit of
`p` under simple case folding.  For ASCII letters this is the upper and lower
case form, plus U+017F for `s` and U+212A for `k`. -/
def foldMatches (p c : Char) : Bool :=
  c == p || c == p.toUpper || c == p.toLower
    || (p.toLower == 's' && c == 'ſ') || (p.toLower == 'k' && c == 'K')

/-- Removes the escape `\\` of a literal pattern. -/
def unescapeLiteral : List Char → List Char
  | '\\' :: '\\' :: rest => '\\' :: unescapeLiteral rest
  | c :: rest => c :: unescapeLiteral rest
  | [] => []

/-- The literal `lit` matches a prefix of the text. -/
def matchesAt (fold : Bool) : List Char → List Char → Bool
  | [], _ => true
  | _ :: _, [] => false
  | p :: ps, c :: cs => (if fold then foldMatches p c else c == p) && matchesAt fold ps cs

/-- Unanchored search of the literal in the text. -/
def searchFrom (fold : Bool) (lit : List Char) : List Char → Bool
  | [] => matchesAt fold lit []
  | c :: cs => matchesAt fold lit (c :: cs) || searchFrom fold lit cs

/-- Model of `regexp.MatchString(pattern, body)` for the literal patterns of the tables. -/
def MatchString (pattern body : String) : Bool :=
  if "(?i)".data.isPrefixOf pattern.data then
    searchFrom true (unescapeLiteral (pattern.data.drop 4)) body.data
  else
    searchFrom false (unescapeLiteral pattern.data) body.data

def searchError (body : String) (errorList : List String) : Bool :=
  errorList.any (fun pattern => MatchString pattern body)

def hasNOSQLError (body : String) : Bool :=
  let mongoErrors := searchError body MongoErrorStrings
  let mongooseErrors := searchError body MongooseErrorStrings
  mongoErrors || mongooseErrors

def hasJSError (body : String) : Bool :=
  searchError body JSSyntaxErrorStrings

/-! ## Responses -/

structure HTTPResponseObject where
  Url : String
  Body : String
  Header : List (String × List String)
  StatusCode : Int
  deriving DecidableEq, Repr

def HTTPResponseObject.ContentEquals (this cmp : HTTPResponseObject) : Bool :=
  let statusEquals := decide (this.StatusCode = cmp.StatusCode)
  let bodyEquals := decide (this.Body = cmp.Body)
  statusEquals && bodyEquals

/-! ## Blind-boolean decision -/

def isBlindInjectable (baseline trueRes falseRes : HTTPResponseObject) : Bool :=
  if hasNOSQLError falseRes.Body || hasNOSQLError trueRes.Body then
    false
  else if hasJSError falseRes.Body || hasJSError trueRes.Body then
    false
  else if baseline.ContentEquals trueRes && baseline.ContentEquals falseRes then
    false
  else if baseline.ContentEquals trueRes && !baseline.ContentEquals falseRes then
    true
  else if !baseline.ContentEquals trueRes && baseline.ContentEquals falseRes then
    true
  else
    false

/-! ## Timing classification

`github.com/montanaflynn/stats` supplies `Mean` and `StdDevS`.  Times are exact
rationals; `none` stands for the `NaN` the library returns (empty input, or the
quotient `0/0` of a single observation), on which every comparison is false. -/

def sleepTimeMS : Int := 500

/-- Model of `stats.Mean`: the sum divided by the number of observations. -/
def Mean (input : List ℚ) : Option ℚ :=
  if input.length = 0 then none else some (input.sum / (input.length : ℚ))

/-- Model of `stats.SampleVariance`: the squared deviations from the mean, summed
and divided by `n - 1`. -/
def VarS (input : List ℚ) : Option ℚ :=
  match Mean input with
  | none => none
  | some m =>
    let variance := (input.map (fun n => (n - m) * (n - m))).sum
    if input.length - 1 = 0 then none else some (variance / ((input.length - 1 : ℕ) : ℚ))

/-- The comparison `x > 2 * stdDev` where `stdDev` is the square root of the
variance `v`, decided on rationals without extracting the root. -/
def exceedsTwoStdDev (x v : ℚ) : Bool :=
  decide (0 < x) && decide (4 * v < x * x)

/-- The test `injectionTime > sleepTimeMS/1000 && injectionTime > mean + 2*stdDev`,
with `stdDev = sqrt (VarS baselines)`. -/
def isTimingInjectable (baselines : List ℚ) (injectionTime : ℚ) : Bool :=
  match Mean baselines, VarS baselines with
  | some mean, some varS =>
    decide (injectionTime > (sleepTimeMS : ℚ) / 1000) && exceedsTwoStdDev (injectionTime - mean) varS
  | _, _ => false

/-! ## Subset enumeration

The producer goroutine of `Combinations` sends its subsets over a channel; the
stream is the list of subsets in the order sent. -/

/-- Width in bits of Go's `int` on the 64-bit targets. -/
def intSize : Nat := 64

/-- Go's `1 << length` at type `int`: the bits shifted past the width are lost,
and the result is read as a two's-complement number. -/
def shiftLeftOne (length : Nat) : Int :=
  Int.bmod (2 ^ length) (2 ^ intSize)

/-- The inner loop of `combinationsGenerator`: the objects whose bit is set in
`subsetBits`, in increasing order of `object`. -/
def subsetOf {α : Type} (set : List α) (subsetBits : Nat) : List α :=
  (List.range set.length).filterMap
    (fun object => if (subsetBits >>> object) &&& 1 = 1 then set[object]? else none)

/-- The outer loop `for subsetBits := 1; subsetBits < (1 << length); subsetBits++`. -/
def combinationsGenerator {α : Type} (set : List α) : List (List α) :=
  let length := set.length
  (List.range ((shiftLeftOne length).toNat - 1)).map (fun j => subsetOf set (j + 1))

def Combinations {α : Type} (data : List α) : List (List α) :=
  combinationsGenerator data

/-- The conversion to `[]interface{}` and back is the identity. -/
abbrev StringCombinations (data : List String) : List (List String) :=
  Combinations data

/-! ## Request model -/

structure ScanOptions where
  Target : String
  Request : String
  ProxyInput : String
  UserAgentInput : String
  RequestData : String
  RequireHTTPS : Bool
  AllowInsecureCertificates : Bool
  deriving DecidableEq, Repr

structure BodyItem where
  Value : String
  Placement : Int
  deriving DecidableEq, Repr

abbrev BodyItemCombinations (data : List BodyItem) : List (List BodyItem) :=
  Combinations data

/-- The part of `url.URL` the engine reads and writes: `Base` is the rendering of
scheme, authority and path, `RawQuery` the encoded query without the `?`. -/
structure URL where
  Base : String
  RawQuery : String
  deriving DecidableEq, Repr

/-- Rendering of `URL.String()`: the query follows a `?` when it is not empty. -/
def URL.String (u : URL) : String :=
  if u.RawQuery = "" then u.Base else u.Base ++ "?" ++ u.RawQuery

/-- The fields of `http.Request` the engine uses; `Header` maps a canonical header
name to its values. -/
structure Request where
  Method : String
  URL : URL
  Header : List (String × List String)
  ContentLength : Int
  deriving DecidableEq, Repr

/-- Lookup `Header.Get`: the first value stored under the key, or the empty string. -/
def headerGet (h : List (String × List String)) (key : String) : String :=
  match h.lookup key with
  | some (v :: _) => v
  | _ => ""

structure AttackObject where
  Request : Request
  Options : ScanOptions
  Body : String
  originalBody : String
  BodyValues : List BodyItem
  IgnoreCache : Bool
  requestCache : List (String × HTTPResponseObject)
  deriving DecidableEq, Repr

/-! ## Findings and de-duplication -/

/-- Go's `type InjectionType int`. -/
structure InjectionType where
  val : Int
  deriving DecidableEq, Repr

def Blind : InjectionType := ⟨0⟩
def Timed : InjectionType := ⟨1⟩
def Error : InjectionType := ⟨2⟩
def GetParam : InjectionType := ⟨3⟩

def InjectionType.String (it : InjectionType) : String :=
  if it = Blind then "Blind NoSQL Injection"
  else if it = Timed then "Timing based NoSQL Injection"
  else if it = Error then "Error based NoSQL Injection"
  else if it = GetParam then "Get Parameter NoSQL Injection"
  else ""

structure InjectionObject where
  Type_ : InjectionType
  AttackObject : AttackObject
  InjectableParam : String
  InjectedParam : String
  InjectedValue : String
  Prefix : String
  Suffix : String
  deriving DecidableEq, Repr

/-- The string `serial` that `InjectionObject.Hash` digests. -/
def InjectionObject.serial (i : InjectionObject) : String :=
  i.Type_.String ++ i.AttackObject.Request.URL.String ++ i.InjectableParam ++ i.InjectedParam
    ++ i.InjectedValue

/-- The fingerprint of a finding; `md5Sum` is the digest `md5.Sum` as a string. -/
def InjectionObject.Hash (md5Sum : String → String) (i : InjectionObject) : String :=
  md5Sum i.serial

def InjectionObject.String (i : InjectionObject) : String :=
  "Found " ++ i.Type_.String ++ ":\n\tURL: " ++ i.AttackObject.Request.URL.String
    ++ "\n\tparam: " ++ i.InjectableParam ++ "\n\tInjection: " ++ i.InjectedParam ++ "="
    ++ i.InjectedValue ++ "\n\n"

/-- One iteration of the loop of `Unique`: `state.1` holds the keys set in the map
`found`, `state.2` is `uniques`. -/
def uniqueStep (md5Sum : String → String) (state : List String × List InjectionObject)
    (injection : InjectionObject) : List String × List InjectionObject :=
  let uniques :=
    if injection.Hash md5Sum ∈ state.1 then state.2 else state.2 ++ [injection]
  (injection.Hash md5Sum :: state.1, uniques)

def Unique (md5Sum : String → String) (injections : List InjectionObject) :
    List InjectionObject :=
  (injections.foldl (uniqueStep md5Sum) ([], [])).2

/-- The findings kept from `xs` when the fingerprints in `found` were seen before. -/
def keepNew (md5Sum : String → String) : List String → List InjectionObject → List InjectionObject
  | _, [] => []
  | found, x :: xs =>
    if x.Hash md5Sum ∈ found then keepNew md5Sum (x.Hash md5Sum :: found) xs
    else x :: keepNew md5Sum (x.Hash md5Sum :: found) xs

/-! ## Orchestrator -/

def display (injectables : List InjectionObject) : String :=
  let report := injectables.foldl (fun report inj => report ++ inj.String) ""
  if injectables.length = 0 then report ++ "No injections found.\n" else report

/-- The findings `run` collects from the three detectors and hands to `display`;
`errorFindings`, `blindFindings` and `timingFindings` are what
`ErrorBasedInjectionTest`, `BlindBooleanInjectionTest` and `TimingInjectionTest`
returned. -/
def runFindings (errorFindings blindFindings timingFindings : List InjectionObject) :
    List InjectionObject :=
  let injectables : List InjectionObject := []
  let injectables := injectables ++ errorFindings
  let injectables := injectables ++ blindFindings
  let injectables := injectables ++ timingFindings
  injectables

/-- The report of `run` after the header line. -/
def runReport (errorFindings blindFindings timingFindings : List InjectionObject) : String :=
  display (runFindings errorFindings blindFindings timingFindings)

/-! ## Sample values -/

def sampleOptions : ScanOptions :=
  { Target := "http://127.0.0.1:8080/users", Request := "", ProxyInput := "",
    UserAgentInput := "Mozilla/5.0 (compatible; NoSQLi-Scanner/1.0)",
    RequestData := "\x7b\"a\":\"a\"\x7d", RequireHTTPS := false, AllowInsecureCertificates := false }

/-- The seed request for target `http://127.0.0.1:8080/users` and body `{"a":"a"}`. -/
def sampleAttack : AttackObject :=
  { Request :=
      { Method := "POST", URL := { Base := "http://127.0.0.1:8080/users", RawQuery := "" },
        Header := [("Content-Type", ["application/json"]), ("Accept", ["application/json"])],
        ContentLength := 9 },
    Options := sampleOptions,
    Body := "\x7b\"a\":\"a\"\x7d", originalBody := "\x7b\"a\":\"a\"\x7d",
    BodyValues := [⟨"a", 0⟩, ⟨"a", 1⟩], IgnoreCache := false, requestCache := [] }

/-- The finding `iterateBodyInjections` emits for the body value `a` and the
injection `'`, carrying the request with the mutated `body`; one is emitted per
placement of `a`. -/
def sampleErrorFinding (body : String) : InjectionObject :=
  { Type_ := Error, AttackObject := { sampleAttack with Body := body }, InjectableParam := "a",
    InjectedParam := "\x27", InjectedValue := "", Prefix := "", Suffix := "" }

/-- Two findings that differ in injectable and injected parameter. -/
def findingAB : InjectionObject :=
  { Type_ := Error, AttackObject := sampleAttack, InjectableParam := "a", InjectedParam := "b",
    InjectedValue := "", Prefix := "", Suffix := "" }

def findingAB2 : InjectionObject :=
  { Type_ := Error, AttackObject := sampleAttack, InjectableParam := "ab", InjectedParam := "",
    InjectedValue := "", Prefix := "", Suffix := "" }

/-! ## Library string routines

`strings.Index`, `strings.Split`, `strings.ReplaceAll` and `strings.HasSuffix` on rune
sequences.  `Split` and `ReplaceAll` repeat `Index` from the end of the previous
occurrence; the library bounds the repetition by the number of occurrences, the
model by the length of the text, which is at least that number. -/

/-- Offset of the first occurrence of `sep`, if there is one. -/
def Index (sep : List Char) : List Char → Option Nat
  | [] => if sep.isPrefixOf [] then some 0 else none
  | c :: t => if sep.isPrefixOf (c :: t) then some 0 else (Index sep t).map (fun m => m + 1)

def genSplit (sep : List Char) : Nat → List Char → List (List Char)
  | 0, s => [s]
  | fuel + 1, s =>
    match Index sep s with
    | none => [s]
    | some m => s.take m :: genSplit sep fuel (s.drop (m + sep.length))

/-- Model of `strings.Split(s, sep)`; an empty separator splits after every rune. -/
def Split (s sep : List Char) : List (List Char) :=
  if sep = [] then s.map (fun c => [c]) else genSplit sep s.length s

def replaceLoop (old new : List Char) : Nat → List Char → List Char
  | 0, s => s
  | fuel + 1, s =>
    match Index old s with
    | none => s
    | some j => s.take j ++ new ++ replaceLoop old new fuel (s.drop (j + old.length))

/-- Model of `strings.ReplaceAll(s, old, new)`; an empty `old` matches before every
rune and at the end. -/
def ReplaceAll (s old new : List Char) : List Char :=
  if old = [] then new ++ s.flatMap (fun c => c :: new) else replaceLoop old new s.length s

def HasSuffix (s suffix : List Char) : Bool :=
  suffix.isSuffixOf s

/-! ## Positional replacement -/

/-- The loop `for i, substring := range components` of `strReplace`, from index `i`
on; `len` is `len(components)`. -/
def strReplaceLoop (source pattern replacement : List Char) (index : Int) (len : Nat) :
    Nat → List (List Char) → List Char → List Char
  | _, [], newBody => newBody
  | i, substring :: rest, newBody =>
    if (i : Int) = (len : Int) - 1 then
      let newBody := newBody ++ substring
      let newBody :=
        if (i : Int) = index ∧ HasSuffix source pattern = true then newBody ++ replacement
        else newBody
      strReplaceLoop source pattern replacement index len (i + 1) rest newBody
    else if (i : Int) = index then
      strReplaceLoop source pattern replacement index len (i + 1) rest
        (newBody ++ substring ++ replacement)
    else
      strReplaceLoop source pattern replacement index len (i + 1) rest
        (newBody ++ substring ++ pattern)

def strReplace (source pattern replacement : String) (index : Int) : String :=
  if index = -1 then
    String.mk (ReplaceAll source.data pattern.data replacement.data)
  else
    let components := Split source.data pattern.data
    String.mk (strReplaceLoop source.data pattern.data replacement.data index
      components.length 0 components [])

/-! ## JSON type of a pattern

`jsonType` asks `jsonparser.Get` (without keys) for the type of the value that starts
the text.  The parser looks at the first byte after the white space; strings, arrays
and objects must be closed, `true`, `false` and `null` must be the whole token, and a
token that starts with a digit or `-` is a number.  Every failure is reported by
`jsonType` as `"string"`. -/

/-- Model of `jsonparser.nextToken`: the text from the first byte that is not white
space. -/
def nextToken : List Char → Option (List Char)
  | [] => none
  | c :: t => if c = ' ' ∨ c = '\n' ∨ c = '\r' ∨ c = '\t' then nextToken t else some (c :: t)

/-- Model of `jsonparser.tokenEnd`: the token before the first delimiter. -/
def tokenEnd : List Char → List Char
  | [] => []
  | c :: t =>
    if c = ' ' ∨ c = '\n' ∨ c = '\r' ∨ c = '\t' ∨ c = ',' ∨ c = '\x7d' ∨ c = ']' then []
    else c :: tokenEnd t

/-- Model of `jsonparser.blockEnd`: the block that starts the text is closed.  Inside a
string (`inString`) a quote ends the string unless an odd number of backslashes
precedes it (`odd`); outside, `level` counts the open blocks. -/
def blockEnd (openSym closeSym : Char) : Bool → Bool → Int → List Char → Bool
  | _, _, _, [] => false
  | true, odd, level, c :: t =>
    if c = '"' then
      if odd then blockEnd openSym closeSym true false level t
      else blockEnd openSym closeSym false false level t
    else if c = '\\' then blockEnd openSym closeSym true (!odd) level t
    else blockEnd openSym closeSym true false level t
  | false, _, level, c :: t =>
    if c = '"' then blockEnd openSym closeSym true false level t
    else if c = openSym then blockEnd openSym closeSym false false (level + 1) t
    else if c = closeSym then
      if level - 1 = 0 then true else blockEnd openSym closeSym false false (level - 1) t
    else blockEnd openSym closeSym false false level t

def jsonType (jsonData : String) : String :=
  match nextToken jsonData.data with
  | none => "string"
  | some [] => "string"
  | some (c :: t) =>
    if c = '"' then "string"
    else if c = '[' then
      if blockEnd '[' ']' false false 0 (c :: t) then "array" else "string"
    else if c = '\x7b' then
      if blockEnd '\x7b' '\x7d' false false 0 (c :: t) then "object" else "string"
    else
      let value := tokenEnd (c :: t)
      if c = 't' ∨ c = 'f' then
        if value = "true".data ∨ value = "false".data then "boolean" else "string"
      else if c = 'u' ∨ c = 'n' then
        if value = "null".data then "null" else "string"
      else if c.isDigit ∨ c = '-' then "number"
      else "string"

/-! ## Body mutation -/

/-- The routines of `encoding/json`, `regexp` and `net/url` behind the body
operations.  `none` is a call that ends the run (`log.Fatal`, or a panic of
`regexp.MustCompile`). -/
structure Library where
  /-- Answer of `isJSON`: `json.Unmarshal` of the text into a `map[string]interface{}` succeeds. -/
  isJSON : String → Bool
  /-- The `number`/`boolean`/`null` case of `setBodyJSONParam`: the body after the
  regular-expression replacement of the value matches selected by `index`. -/
  replaceValueMatches : String → String → String → Int → Option String
  /-- The body after `url.QueryUnescape`. -/
  QueryUnescape : String → Option String
  /-- The body after `setBodyQueryParam` (parse as a query, replace key or values,
  encode); a body that does not parse is returned as it is. -/
  setBodyQueryParam : String → String → String → Bool → String
  /-- The body after `urlEncodeBody`: parsed as the query of `/?body` and encoded again. -/
  urlEncode : String → Option String
  /-- The keys and values `FlattenJSON` collects from a JSON body, in traversal order. -/
  FlattenJSON : String → List String
  /-- The keys and values `extractUpdateableQueryValuesFromBody` collects from a form body. -/
  queryValues : String → Option (List String)
  /-- The URL `url.Parse` reads from a text. -/
  parseURL : String → Option URL
  /-- The request `parseRequest` reads from a raw-request file. -/
  parseRequest : String → ScanOptions → Option AttackObject
  /-- The multimap `URL.Query()` reads from a raw query. -/
  Query : String → List (String × List String)
  /-- The raw query `Values.Encode()` writes for a multimap. -/
  Encode : List (String × List String) → String

/-! ### The regular-expression case of `setBodyJSONParam`

For a pattern of letters and digits (`12`, `true`, `null`) the expression
`(?P<Prefix>[\[,:]\s*?)(?P<Payload>pattern)(?P<Suffix>\s*?[,\]\}])` and the expressions
`Prefix + Payload + Suffix` compiled from its matches are within a fragment of the
`regexp` syntax that is modelled here: literal runes and one leading character class.
Any other pattern is left to `Library.replaceValueMatches`. -/

/-- Runes matched by `\s`. -/
def isRegexpSpace (c : Char) : Bool :=
  c = '\t' ∨ c = '\n' ∨ c = '\x0c' ∨ c = '\r' ∨ c = ' '

/-- The patterns of the modelled fragment: letters and digits only. -/
def isPlainPattern (pattern : List Char) : Bool :=
  !pattern.isEmpty && pattern.all Char.isAlphanum

/-- A match of the value expression at the start of the text: the texts of the groups
`Prefix` and `Suffix`, and the text after the match. -/
def matchValueAt (pattern : List Char) : List Char → Option (List Char × List Char × List Char)
  | [] => none
  | d :: t =>
    if d = '[' ∨ d = ',' ∨ d = ':' then
      let t1 := t.dropWhile isRegexpSpace
      if pattern.isPrefixOf t1 then
        let t2 := t1.drop pattern.length
        match t2.dropWhile isRegexpSpace with
        | c :: rest =>
          if c = ',' ∨ c = ']' ∨ c = '\x7d' then
            some (d :: t.takeWhile isRegexpSpace, t2.takeWhile isRegexpSpace ++ [c], rest)
          else none
        | [] => none
      else none
    else none

/-- Model of `re.FindAllStringSubmatch(a.Body, -1)`: the leftmost matches, each search
starting where the previous match ended. -/
def findValueMatches (pattern : List Char) : Nat → List Char → List (List Char × List Char)
  | 0, _ => []
  | _ + 1, [] => []
  | fuel + 1, c :: t =>
    match matchValueAt pattern (c :: t) with
    | some (pre, suf, rest) => (pre, suf) :: findValueMatches pattern fuel rest
    | none => findValueMatches pattern fuel t

/-- One rune of a compiled expression: a literal or a character class. -/
inductive RegexpAtom where
  | lit (c : Char)
  | cls (members : List Char)
  deriving DecidableEq, Repr

def RegexpAtom.accepts : RegexpAtom → Char → Bool
  | RegexpAtom.lit c, x => x == c
  | RegexpAtom.cls members, x => members.contains x

/-- Model of `regexp.MustCompile(Prefix + Payload + Suffix)`: a text that starts with
`[` opens a character class that must be closed by a `]`, else the call panics
(`none`); every other rune of the text stands for itself. -/
def compileValueRegexp : List Char → Option (List RegexpAtom)
  | '[' :: rest =>
    match rest.span (fun c => c != ']') with
    | (members, _ :: after) => some (RegexpAtom.cls members :: after.map RegexpAtom.lit)
    | (_, []) => none
  | text => some (text.map RegexpAtom.lit)

/-- The compiled expression matches at the start of the text; the text after it. -/
def atomsMatchAt : List RegexpAtom → List Char → Option (List Char)
  | [], s => some s
  | _ :: _, [] => none
  | a :: as, c :: t => if a.accepts c then atomsMatchAt as t else none

/-- Model of `re.ReplaceAllLiteralString(body, repl)` for a compiled expression that
matches at least one rune. -/
def replaceAllLiteral (re : List RegexpAtom) (repl : List Char) : Nat → List Char → List Char
  | 0, s => s
  | _ + 1, [] => []
  | fuel + 1, c :: t =>
    match atomsMatchAt re (c :: t) with
    | some rest => repl ++ replaceAllLiteral re repl fuel rest
    | none => c :: replaceAllLiteral re repl fuel t

/-- The matches kept in `m2`: all of them for `index == -1`, else the one whose
position `count` is `index`. -/
def selectMatches (index : Int) : Nat → List (List Char × List Char) → List (List Char × List Char)
  | _, [] => []
  | count, submatch :: rest =>
    if index ≠ -1 ∧ index ≠ (count : Int) then selectMatches index (count + 1) rest
    else submatch :: selectMatches index (count + 1) rest

/-- The loop `for _, finding := range m2`: compile the text of the match, replace all
its matches in the body by `Prefix + payload + Suffix`. -/
def replaceFindings (pattern payload : List Char) : List (List Char × List Char) → List Char →
    Option (List Char)
  | [], body => some body
  | (pre, suf) :: rest, body =>
    match compileValueRegexp (pre ++ pattern ++ suf) with
    | none => none
    | some re =>
      replaceFindings pattern payload rest
        (replaceAllLiteral re (pre ++ payload ++ suf) body.length body)

/-- The `number`/`boolean`/`null` case of `setBodyJSONParam`. -/
def valueRegexpReplace (lib : Library) (body pattern payload : String) (index : Int) :
    Option String :=
  if isPlainPattern pattern.data then
    let submatches := findValueMatches pattern.data body.data.length body.data
    let m2 := selectMatches index 0 submatches
    (replaceFindings pattern.data payload.data m2 body.data).map String.mk
  else
    lib.replaceValueMatches body pattern payload index

def AttackObject.setBodyJSONParam (lib : Library) (a : AttackObject) (pattern payload : String)
    (_replaceKey : Bool) (index : Int) : Option AttackObject :=
  let t := jsonType pattern
  if t = "string" then
    let pattern := "\"" ++ pattern ++ "\""
    some { a with Body := strReplace a.Body pattern payload index }
  else if t = "number" ∨ t = "boolean" ∨ t = "null" then
    (valueRegexpReplace lib a.Body pattern payload index).map (fun body => { a with Body := body })
  else
    some { a with Body := strReplace a.Body pattern payload index }

def AttackObject.bodyIsJSON (lib : Library) (a : AttackObject) : Bool :=
  let contentType := headerGet a.Request.Header "Content-Type"
  if contentType = "application/json" then true
  else if lib.isJSON a.Body then true
  else false

def AttackObject.urlDecodeBody (lib : Library) (a : AttackObject) : Option AttackObject :=
  (lib.QueryUnescape a.Body).map (fun decoded => { a with Body := decoded })

def AttackObject.setBodyQueryParam (lib : Library) (a : AttackObject) (pattern payload : String)
    (replaceKey : Bool) : AttackObject :=
  { a with Body := lib.setBodyQueryParam a.Body pattern payload replaceKey }

/-- Assignment `a.Request.ContentLength = int64(len(a.Body))`. -/
def AttackObject.updateContentLength (a : AttackObject) : AttackObject :=
  { a with Request := { a.Request with ContentLength := (a.Body.utf8ByteSize : Int) } }

def AttackObject.ReplaceBodyObject (lib : Library) (a : AttackObject) (pattern payload : String)
    (replaceKey : Bool) (index : Int) : Option AttackObject :=
  let mutated :=
    if a.bodyIsJSON lib then a.setBodyJSONParam lib pattern payload replaceKey index
    else (a.urlDecodeBody lib).map (fun a => a.setBodyQueryParam lib pattern payload replaceKey)
  mutated.map AttackObject.updateContentLength

/-- A library in which nothing parses and every fallible call fails. -/
def emptyLibrary : Library :=
  { isJSON := fun _ => false, replaceValueMatches := fun _ _ _ _ => none,
    QueryUnescape := fun _ => none, setBodyQueryParam := fun body _ _ _ => body,
    urlEncode := fun _ => none, FlattenJSON := fun _ => [], queryValues := fun _ => none,
    parseURL := fun _ => none, parseRequest := fun _ _ => none, Query := fun _ => [],
    Encode := fun _ => "" }

/-! ## Body values, `SetBody` and `RestoreBody` -/

/-- The loop of `extractUpdateableValuesFromBody` over the extracted values.  The map
`valueCounter` is a list of bindings, the newest first. -/
def appendBodyValues : List String → List (String × Int) → List BodyItem → List BodyItem
  | [], _, bodyValues => bodyValues
  | v :: rest, valueCounter, bodyValues =>
    let n : Int :=
      match valueCounter.lookup v with
      | some n => n + 1
      | none => 0
    appendBodyValues rest ((v, n) :: valueCounter) (bodyValues ++ [⟨v, n⟩])

def AttackObject.extractUpdateableValuesFromBody (lib : Library) (a : AttackObject) :
    Option AttackObject :=
  let values : Option (List String) :=
    if lib.isJSON a.Body then some (lib.FlattenJSON a.Body) else lib.queryValues a.Body
  values.map (fun values => { a with BodyValues := appendBodyValues values [] a.BodyValues })

/-- Assignment `Header.Set(key, value)`. -/
def headerSet (h : List (String × List String)) (key value : String) :
    List (String × List String) :=
  (key, [value]) :: h.filter (fun e => e.1 != key)

def AttackObject.setHeader (a : AttackObject) (key value : String) : AttackObject :=
  { a with Request := { a.Request with Header := headerSet a.Request.Header key value } }

def AttackObject.setMethod (a : AttackObject) (method : String) : AttackObject :=
  { a with Request := { a.Request with Method := method } }

def AttackObject.urlEncodeBody (lib : Library) (a : AttackObject) : Option AttackObject :=
  (lib.urlEncode a.Body).map (fun encoded => { a with Body := encoded })

def AttackObject.SetBody (lib : Library) (a : AttackObject) (body : String) :
    Option AttackObject :=
  let a := { a with Body := body, originalBody := body }
  if a.Body = "" then
    some (a.setMethod "GET")
  else
    let a := a.setMethod "POST"
    let encoded : Option AttackObject :=
      if lib.isJSON a.Body then
        some (a.setHeader "Content-Type" "application/json")
      else
        ((a.setHeader "Content-Type" "application/x-www-form-urlencoded").urlEncodeBody lib).map
          (fun a => { a with originalBody := a.Body })
    (encoded.bind (fun a => a.extractUpdateableValuesFromBody lib)).map
      AttackObject.updateContentLength

def AttackObject.RestoreBody (a : AttackObject) : AttackObject :=
  ({ a with Body := a.originalBody }).updateContentLength

/-- A sequence of `ReplaceBodyObject` calls, given by their arguments. -/
def AttackObject.replaceAll (lib : Library) :
    AttackObject → List (String × String × Bool × Int) → Option AttackObject
  | a, [] => some a
  | a, (pattern, payload, replaceKey, index) :: rest =>
    (a.ReplaceBodyObject lib pattern payload replaceKey index).bind
      (fun a => AttackObject.replaceAll lib a rest)

/-- A library for the sample requests.  On the sample texts it answers as the routines
do: a text is JSON when it is a closed block in braces, the sample form body `a=b` is
its own encoding, a URL without query is its own base. -/
def sampleLibrary : Library :=
  { isJSON := fun s => jsonType s == "object", replaceValueMatches := fun _ _ _ _ => none,
    QueryUnescape := fun s => some s, setBodyQueryParam := fun body _ _ _ => body,
    urlEncode := fun s => some s,
    FlattenJSON := fun s =>
      if s = "\x7b\"a\":\"a\"\x7d" then ["a", "a"]
      else if s = "\x7b\"b\":\"c\"\x7d" then ["b", "c"]
      else [],
    queryValues := fun s => if s = "a=b" then some ["a", "b"] else some [],
    parseURL := fun s => some { Base := s, RawQuery := "" },
    parseRequest := fun _ _ => none, Query := fun _ => [], Encode := fun _ => "" }

/-- The sample request with another JSON body. -/
def sampleJSONAttack (body : String) : AttackObject :=
  { sampleAttack with Body := body, originalBody := body }

/-- The items `appendBodyValues` adds for the values `rest` when the values `done` were
counted before: each value with the number of its earlier occurrences. -/
def placements : List String → List String → List BodyItem
  | _, [] => []
  | done, v :: rest => ⟨v, (done.count v : Nat)⟩ :: placements (done ++ [v]) rest

/-! ## Construction and copy -/

/-- The rewriting of the target under `RequireHTTPS`; `none` when a slice expression is
out of range. -/
def requireHTTPSTarget (target : String) : Option String :=
  if target.utf8ByteSize < 5 then none
  else if ¬ "https".data.isPrefixOf target.data = true ∧ "http".data.isPrefixOf target.data = true then
    match Index "://".data target.data with
    | none => none
    | some i => some ("https" ++ String.mk (target.data.drop i))
  else some target

/-- The zero value `AttackObject{}` with an empty request cache. -/
def zeroAttackObject (request : Request) (options : ScanOptions) : AttackObject :=
  { Request := request, Options := options, Body := "", originalBody := "", BodyValues := [],
    IgnoreCache := false, requestCache := [] }

/-- The end of `NewAttackObject`, from `if options.RequestData != ""` on. -/
def finishAttackObject (lib : Library) (attackObj : AttackObject) (options : ScanOptions) :
    Option AttackObject :=
  let withBody : Option AttackObject :=
    if options.RequestData ≠ "" then
      (attackObj.SetBody lib options.RequestData).map (fun a =>
        (a.setHeader "Content-Type" "application/json").setHeader "Accept" "application/json")
    else some attackObj
  withBody.map (fun a =>
    ({ a with Options := options } : AttackObject).setHeader "User-Agent" options.UserAgentInput)

/-- The outer `none` is a run ended by `log.Fatal` or a panic; `Except.error` is the
error returned when neither a target nor a request file is given. -/
def NewAttackObject (lib : Library) (options : ScanOptions) :
    Option (Except String AttackObject) :=
  if options.Request ≠ "" then
    match lib.parseRequest options.Request options with
    | none => none
    | some attackObj =>
      let options :=
        if options.UserAgentInput = "" then
          { options with UserAgentInput := headerGet attackObj.Request.Header "User-Agent" }
        else options
      (finishAttackObject lib attackObj options).map Except.ok
  else if options.Target ≠ "" then
    let target := if options.RequireHTTPS then requireHTTPSTarget options.Target
      else some options.Target
    match target with
    | none => none
    | some target =>
      let options := { options with Target := target }
      match lib.parseURL target with
      | none => none
      | some u =>
        (finishAttackObject lib
          (zeroAttackObject { Method := "GET", URL := u, Header := [], ContentLength := 0 } options)
          options).map Except.ok
  else
    some (Except.error "You must specify either a target or a request file to scan.")

/-- Go's `copy(dst, src)`: the first `min(len(dst), len(src))` elements of `dst` are
overwritten. -/
def copySlice {α : Type} (dst src : List α) : List α :=
  src.take dst.length ++ dst.drop src.length

/-- The copy dereferences `attackObj.Request`, which is nil when `NewAttackObject`
returned its error. -/
def AttackObject.Copy (lib : Library) (a : AttackObject) : Option AttackObject :=
  match NewAttackObject lib a.Options with
  | some (Except.ok attackObj) =>
    some { attackObj with
      Body := a.Body,
      IgnoreCache := a.IgnoreCache,
      BodyValues := copySlice attackObj.BodyValues a.BodyValues,
      originalBody := a.originalBody,
      Request := { attackObj.Request with
        URL := { attackObj.Request.URL with RawQuery := a.Request.URL.RawQuery },
        Method := a.Request.Method,
        Header := a.Request.Header } }
  | _ => none

def AttackObject.SetURL (lib : Library) (a : AttackObject) (u : String) : Option AttackObject :=
  (lib.parseURL u).map (fun parsedURL => { a with Request := { a.Request with URL := parsedURL } })

/-! ## Query parameters

`url.Values` is a map from keys to value lists; it is a list of bindings in which the
first binding of a key is the one that counts. -/

abbrev Values := List (String × List String)

/-- The value list `q[key]`, empty for a missing key. -/
def valuesGet (q : Values) (key : String) : List String :=
  (q.lookup key).getD []

/-- Model of `Values.Del(key)`. -/
def valuesDel (q : Values) (key : String) : Values :=
  q.filter (fun e => e.1 != key)

/-- Model of `Values.Add(key, value)`: append the value to the list of the key. -/
def valuesAdd : Values → String → String → Values
  | [], key, value => [(key, [value])]
  | (k, vs) :: rest, key, value =>
    if k = key then (k, vs ++ [value]) :: rest else (k, vs) :: valuesAdd rest key value

/-- The assignment `q[key][0] = payload`; `none` when the index is out of range. -/
def valuesSetFirst : Values → String → String → Option Values
  | [], _, _ => none
  | (k, vs) :: rest, key, payload =>
    if k = key then
      match vs with
      | [] => none
      | _ :: tl => some ((k, payload :: tl) :: rest)
    else (valuesSetFirst rest key payload).map (fun rest => (k, vs) :: rest)

def AttackObject.setRawQuery (a : AttackObject) (raw : String) : AttackObject :=
  { a with Request := { a.Request with URL := { a.Request.URL with RawQuery := raw } } }

/-- The first value of every key; `none` when a key has no value. -/
def AttackObject.QueryParams (lib : Library) (a : AttackObject) : Option (List (String × String)) :=
  (lib.Query a.Request.URL.RawQuery).mapM (fun e => e.2.head?.map (fun v => (e.1, v)))

def AttackObject.SetQueryParam (lib : Library) (a : AttackObject) (key payload : String) :
    Option AttackObject :=
  (valuesSetFirst (lib.Query a.Request.URL.RawQuery) key payload).map
    (fun q => a.setRawQuery (lib.Encode q))

def AttackObject.ReplaceQueryParam (lib : Library) (a : AttackObject) (oldkey key value : String) :
    AttackObject :=
  a.setRawQuery (lib.Encode (valuesAdd (valuesDel (lib.Query a.Request.URL.RawQuery) oldkey) key value))

/-- The probe mutation of `iterateGetInjections` on the query multimap. -/
def probeQuery (injectKeys : Bool) (q : Values) (k v injection : String) : Option Values :=
  if injectKeys then some (valuesAdd (valuesDel q k) (k ++ injection) v)
  else valuesSetFirst q k injection

/-- The reset step of `iterateGetInjections` on the query multimap. -/
def restoreQuery (injectKeys : Bool) (q : Values) (k v injection : String) : Option Values :=
  if injectKeys then some (valuesAdd (valuesDel q (k ++ injection)) k v)
  else valuesSetFirst q k v

/-! ## JavaScript injections -/

def JSPrefixes : List String := ["", "\x27", "\""]

def JSSuffixes : List String := ["", "\x27", "\"", "//", "\x27\x7d//"]

def JSTrueStrings : List String :=
  [" && \x27a\x27==\x27a\x27 && \x27a\x27==\x27a",
   " || \x27a\x27==\x27a\x27 || \x27a\x27==\x27a",
   ";return true;"]

def JSFalseStrings : List String :=
  [" && \x27a\x27!=\x27a\x27 && \x27a\x27!=\x27a",
   ";return false;"]

/-- Model of `strings.ReplaceAll` on strings. -/
def stringsReplaceAll (s old new : String) : String :=
  String.mk (ReplaceAll s.data old.data new.data)

/-- The update `attacks[key] = append(attacks[key], value)`, or the first binding of
the key. -/
def attacksAppend : List (String × List String) → String → String → List (String × List String)
  | [], key, value => [(key, [value])]
  | (k, vs) :: rest, key, value =>
    if k = key then (k, vs ++ [value]) :: rest else (k, vs) :: attacksAppend rest key value

/-- The fragment `prefix + injection + suffix` with every apostrophe replaced. -/
def jsFragment (quoteType pre injection suffix : String) : String :=
  stringsReplaceAll (pre ++ injection ++ suffix) "\x27" quoteType

def JSInjections (quoteType : String) : List (String × List String) :=
  JSPrefixes.foldl (fun attacks pre =>
    JSSuffixes.foldl (fun attacks suffix =>
      JSTrueStrings.foldl (fun attacks tInjection =>
        let tInjection := jsFragment quoteType pre tInjection suffix
        JSFalseStrings.foldl (fun attacks finjection =>
          let finjection := jsFragment quoteType pre finjection suffix
          attacksAppend attacks tInjection finjection) attacks) attacks) attacks) []

/-- The map `m` lists the value `f` under the key `t`. -/
def hasPair (t f : String) (m : List (String × List String)) : Prop :=
  ∃ fs, m.lookup t = some fs ∧ f ∈ fs

/-- The request `NewAttackObject` builds from `sampleOptions` with `sampleLibrary`. -/
def sampleBuilt : AttackObject :=
  { sampleAttack with
    Request := { sampleAttack.Request with
      Header := [("User-Agent", ["Mozilla/5.0 (compatible; NoSQLi-Scanner/1.0)"]),
        ("Accept", ["application/json"]), ("Content-Type", ["application/json"])] } }

/-- The content type of a built request. -/
def builtContentType : Option (Except String AttackObject) → Option String
  | some (Except.ok a) => some (headerGet a.Request.Header "Content-Type")
  | _ => none

/-! ## Theorems -/

theorem matchesAt_self_append (lit post : List Char) :
    matchesAt true lit (lit ++ post) = true := by
  induction lit with
  | nil => cases post <;> rfl
  | cons p ps ih => simp [matchesAt, foldMatches, ih]

theorem searchFrom_of_infix (fold : Bool) (lit pre rest : List Char)
    (h : matchesAt fold lit rest = true) : searchFrom fold lit (pre ++ rest) = true := by
  induction pre with
  | nil => cases rest <;> simp_all [searchFrom]
  | cons c cs ih => simp [searchFrom, ih]

theorem hasNOSQLError_of_MongoError (body : String) (pre post : List Char)
    (h : body.data = pre ++ "MongoError".data ++ post) : hasNOSQLError body = true := by
  have h1 : MatchString "(?i)MongoError" body = true := by
    have : searchFrom true "MongoError".data body.data = true := by
      rw [h, List.append_assoc]
      exact searchFrom_of_infix _ _ _ _ (matchesAt_self_append _ _)
    simpa [MatchString] using this
  simp [hasNOSQLError, searchError, MongoErrorStrings, h1]

theorem blind_decision_aux (p1 p2 p3 p4 : Prop) [Decidable p1] [Decidable p2] [Decidable p3]
    [Decidable p4] (n1 n2 j1 j2 : Bool) :
    ((if (n2 || n1) = true then false
      else if (j2 || j1) = true then false
      else if ((decide p1 && decide p2) && (decide p3 && decide p4)) = true then false
      else if ((decide p1 && decide p2) && !(decide p3 && decide p4)) = true then true
      else if (!(decide p1 && decide p2) && (decide p3 && decide p4)) = true then true
      else false) = true ↔
      (n1 = false ∧ n2 = false ∧ j1 = false ∧ j2 = false) ∧
      (((¬ p1 ∨ ¬ p2) ∧ ¬ (¬ p3 ∨ ¬ p4)) ∨ (¬ (¬ p1 ∨ ¬ p2) ∧ (¬ p3 ∨ ¬ p4)))) := by
  cases n1 <;> cases n2 <;> cases j1 <;> cases j2 <;>
    by_cases h1 : p1 <;> by_cases h2 : p2 <;> by_cases h3 : p3 <;> by_cases h4 : p4 <;>
    simp [h1, h2, h3, h4]

theorem hasNOSQLError_examples :
    hasNOSQLError "x mongoerror y" = true ∧
    hasNOSQLError "Uncaught MongoDB\\Driver\\Exception\\CommandException: unknown operator" = true ∧
    hasNOSQLError "Caſt to ſtring failed for value" = true ∧
    hasJSError "SyntaxError: Unexpected token" = true ∧
    hasJSError "syntaxerror" = false ∧
    hasNOSQLError "all fine" = false := by
  decide

/-- C1: `isBlindInjectable` answers true exactly when neither probe body matches a
NoSQL or JS error signature and exactly one of the two probe responses differs
from the baseline in status code or body; a probe body containing `MongoError`
makes it answer false. -/
theorem isBlindInjectable_iff (baseline trueRes falseRes : HTTPResponseObject) :
    (isBlindInjectable baseline trueRes falseRes = true ↔
      (hasNOSQLError trueRes.Body = false ∧ hasNOSQLError falseRes.Body = false ∧
        hasJSError trueRes.Body = false ∧ hasJSError falseRes.Body = false) ∧
      (((baseline.StatusCode ≠ trueRes.StatusCode ∨ baseline.Body ≠ trueRes.Body) ∧
          ¬ (baseline.StatusCode ≠ falseRes.StatusCode ∨ baseline.Body ≠ falseRes.Body)) ∨
        (¬ (baseline.StatusCode ≠ trueRes.StatusCode ∨ baseline.Body ≠ trueRes.Body) ∧
          (baseline.StatusCode ≠ falseRes.StatusCode ∨ baseline.Body ≠ falseRes.Body)))) ∧
    (∀ pre post : List Char,
      isBlindInjectable baseline
          { trueRes with Body := String.mk (pre ++ "MongoError".data ++ post) } falseRes = false ∧
        isBlindInjectable baseline trueRes
          { falseRes with Body := String.mk (pre ++ "MongoError".data ++ post) } = false) := by
  refine ⟨?_, fun pre post => ⟨?_, ?_⟩⟩
  · unfold isBlindInjectable HTTPResponseObject.ContentEquals
    exact blind_decision_aux _ _ _ _ _ _ _ _
  · have h := hasNOSQLError_of_MongoError (String.mk (pre ++ "MongoError".data ++ post)) pre post rfl
    unfold isBlindInjectable
    dsimp only
    rw [h]
    simp
  · have h := hasNOSQLError_of_MongoError (String.mk (pre ++ "MongoError".data ++ post)) pre post rfl
    unfold isBlindInjectable
    dsimp only
    rw [h]
    simp

/-! ### Timing -/

theorem exceedsTwoStdDev_iff (x v : ℚ) (hv : 0 ≤ v) :
    exceedsTwoStdDev x v = true ↔ (x : ℝ) > 2 * Real.sqrt (v : ℝ) := by
  have hvR : (0 : ℝ) ≤ (v : ℝ) := by exact_mod_cast hv
  simp only [exceedsTwoStdDev, Bool.and_eq_true, decide_eq_true_eq, gt_iff_lt]
  constructor
  · rintro ⟨hx, h⟩
    have hxR : (0 : ℝ) < (x : ℝ) / 2 := by
      have : (0 : ℝ) < (x : ℝ) := by exact_mod_cast hx
      linarith
    have hR : (4 : ℝ) * v < x * x := by exact_mod_cast h
    have : Real.sqrt (v : ℝ) < (x : ℝ) / 2 := by
      rw [Real.sqrt_lt' hxR]
      nlinarith
    linarith
  · intro h
    have hs : 0 ≤ Real.sqrt (v : ℝ) := Real.sqrt_nonneg _
    have hxR : (0 : ℝ) < (x : ℝ) := by linarith
    have h2 : Real.sqrt (v : ℝ) < (x : ℝ) / 2 := by linarith
    rw [Real.sqrt_lt' (by linarith)] at h2
    refine ⟨by exact_mod_cast hxR, ?_⟩
    have : (4 : ℝ) * v < x * x := by nlinarith
    exact_mod_cast this

theorem sum_sq_dev_nonneg (m : ℚ) (xs : List ℚ) :
    0 ≤ (xs.map (fun n => (n - m) * (n - m))).sum := by
  apply List.sum_nonneg
  intro x hx
  obtain ⟨n, -, rfl⟩ := List.mem_map.1 hx
  exact mul_self_nonneg _

theorem Mean_eq_some (baselines : List ℚ) (hn : 2 ≤ baselines.length) :
    Mean baselines = some (baselines.sum / (baselines.length : ℚ)) := by
  have : baselines.length ≠ 0 := by omega
  simp [Mean, this]

theorem VarS_eq_some (baselines : List ℚ) (hn : 2 ≤ baselines.length) :
    VarS baselines = some ((baselines.map
      (fun x => (x - baselines.sum / (baselines.length : ℚ)) ^ 2)).sum /
        ((baselines.length : ℚ) - 1)) := by
  have h1 : baselines.length - 1 ≠ 0 := by omega
  have h2 : ((baselines.length - 1 : ℕ) : ℚ) = (baselines.length : ℚ) - 1 := by
    rw [Nat.cast_sub (by omega)]; simp
  simp only [VarS, Mean_eq_some baselines hn, h1, if_false, h2]
  congr 3
  apply List.map_congr_left
  intro x _
  ring

/-- C3: with at least two baseline times, `isTimingInjectable` answers true exactly
when the probe time exceeds `sleepTimeMS/1000` seconds and exceeds the baseline mean
plus twice the sample standard deviation (divisor `n - 1`). -/
theorem isTimingInjectable_iff (baselines : List ℚ) (t : ℚ) (hn : 2 ≤ baselines.length) :
    isTimingInjectable baselines t = true ↔
      (t : ℝ) > 500 / 1000 ∧
      (t : ℝ) > ((baselines.sum / (baselines.length : ℚ) : ℚ) : ℝ) +
        2 * Real.sqrt (((baselines.map
          (fun x => (x - baselines.sum / (baselines.length : ℚ)) ^ 2)).sum /
            ((baselines.length : ℚ) - 1) : ℚ) : ℝ) := by
  have hv : 0 ≤ (baselines.map
      (fun x => (x - baselines.sum / (baselines.length : ℚ)) ^ 2)).sum /
        ((baselines.length : ℚ) - 1) := by
    apply div_nonneg
    · apply List.sum_nonneg
      intro x hx
      obtain ⟨n, -, rfl⟩ := List.mem_map.1 hx
      exact sq_nonneg _
    · have : (2 : ℚ) ≤ (baselines.length : ℚ) := by exact_mod_cast hn
      linarith
  simp only [isTimingInjectable, Mean_eq_some baselines hn, VarS_eq_some baselines hn,
    Bool.and_eq_true, decide_eq_true_eq, exceedsTwoStdDev_iff _ _ hv, sleepTimeMS]
  constructor
  · rintro ⟨h1, h2⟩
    refine ⟨?_, ?_⟩
    · have : ((500 : ℚ) / 1000 : ℚ) < t := by simpa using h1
      have h : (((500 : ℚ) / 1000 : ℚ) : ℝ) < (t : ℝ) := by exact_mod_cast this
      simpa using h
    · have h2' := h2
      push_cast at h2' ⊢
      linarith
  · rintro ⟨h1, h2⟩
    refine ⟨?_, ?_⟩
    · have h : (((500 : ℚ) / 1000 : ℚ) : ℝ) < (t : ℝ) := by simpa using h1
      have : ((500 : ℚ) / 1000 : ℚ) < t := by exact_mod_cast h
      simpa using this
    · push_cast at h2 ⊢
      linarith

theorem isTimingInjectable_iff_witness :
    2 ≤ ([0, 2, 4] : List ℚ).length ∧
    (isTimingInjectable [0, 2, 4] 7 = true ↔
      ((7 : ℚ) : ℝ) > 500 / 1000 ∧
      ((7 : ℚ) : ℝ) > (((([0, 2, 4] : List ℚ)).sum / ((([0, 2, 4] : List ℚ)).length : ℚ) : ℚ) : ℝ) +
        2 * Real.sqrt ((((([0, 2, 4] : List ℚ)).map
          (fun x => (x - (([0, 2, 4] : List ℚ)).sum / ((([0, 2, 4] : List ℚ)).length : ℚ)) ^ 2)).sum /
            (((([0, 2, 4] : List ℚ)).length : ℚ) - 1) : ℚ) : ℝ)) :=
  ⟨by decide, isTimingInjectable_iff [0, 2, 4] 7 (by decide)⟩

/-- C2 (as stated) fails: with three baselines of 1 s a probe of 0.75 s exceeds
`sleepTimeMS/1000` and is not reported. -/
theorem isTimingInjectable_slow_baseline :
    isTimingInjectable [1, 1, 1] (3 / 4) = false ∧ (3 / 4 : ℚ) > (sleepTimeMS : ℚ) / 1000 := by
  have h1 : isTimingInjectable [1, 1, 1] (3 / 4) = false := by
    simp [isTimingInjectable, Mean, VarS, exceedsTwoStdDev]
    norm_num
  have h2 : (3 / 4 : ℚ) > (sleepTimeMS : ℚ) / 1000 := by
    norm_num [sleepTimeMS]
  exact ⟨h1, h2⟩

/-- C2 (amended): on three equal baselines `t` the probe time `t'` is reported
exactly when it exceeds both `sleepTimeMS/1000` seconds and `t`. -/
theorem isTimingInjectable_constant_baseline (t t' : ℚ) :
    isTimingInjectable [t, t, t] t' = true ↔ t' > (sleepTimeMS : ℚ) / 1000 ∧ t' > t := by
  have hm : (t + (t + t)) / 3 = t := by ring
  simp only [isTimingInjectable, Mean, VarS, exceedsTwoStdDev, List.length_cons,
    List.length_nil, List.sum_cons, List.sum_nil, List.map_cons, List.map_nil]
  norm_num [hm]
  intro _ h hz
  linarith

/-! ### Subset enumeration -/

theorem shiftLeftOne_small (n : Nat) (hn : n < 63) : shiftLeftOne n = 2 ^ n := by
  have h1 : (2 : ℤ) ^ n ≤ 2 ^ 62 := pow_le_pow_right₀ (by norm_num) (by omega)
  have h0 : (0 : ℤ) < 2 ^ n := by positivity
  unfold shiftLeftOne intSize
  rw [Int.bmod_def]
  have hm : ((2 ^ 64 : ℕ) : ℤ) = 18446744073709551616 := by norm_num
  have h62 : (2 : ℤ) ^ 62 = 4611686018427387904 := by norm_num
  rw [hm]
  rw [h62] at h1
  have hmod : (2 : ℤ) ^ n % 18446744073709551616 = 2 ^ n :=
    Int.emod_eq_of_lt (le_of_lt h0) (by omega)
  rw [hmod]
  have : (2 : ℤ) ^ n < (18446744073709551616 + 1) / 2 := by omega
  rw [if_pos this]

theorem bit_test_iff (k i : Nat) : ((k >>> i) &&& 1 = 1) ↔ k.testBit i = true := by
  rw [Nat.testBit_to_div_mod, Nat.and_one_is_mod, Nat.shiftRight_eq_div_pow]
  simp

theorem subsetOf_eq {α : Type} (set : List α) (k : Nat) :
    subsetOf set k =
      ((List.range set.length).filter (fun i => k.testBit i)).filterMap (fun i => set[i]?) := by
  unfold subsetOf
  rw [List.filterMap_filter]
  apply List.filterMap_congr
  intro i _
  by_cases h : k.testBit i = true
  · simp [h, (bit_test_iff k i).2 h]
  · have h' : ¬ ((k >>> i) &&& 1 = 1) := fun hc => h ((bit_test_iff k i).1 hc)
    rw [if_neg h']
    simp [h]

theorem exists_bit_lt (n k : Nat) (h1 : 1 ≤ k) (h2 : k < 2 ^ n) :
    ∃ i, i < n ∧ k.testBit i = true := by
  obtain ⟨i, hi⟩ := Nat.ne_zero_implies_bit_true (x := k) (by omega)
  refine ⟨i, ?_, hi⟩
  by_contra hlt
  have : k < 2 ^ i := lt_of_lt_of_le h2 (Nat.pow_le_pow_right (by norm_num) (by omega))
  rw [Nat.testBit_lt_two_pow this] at hi
  exact Bool.noConfusion hi

theorem bits_filter_injective (n a b : Nat) (ha : a < 2 ^ n) (hb : b < 2 ^ n)
    (h : (List.range n).filter (fun i => a.testBit i) =
      (List.range n).filter (fun i => b.testBit i)) : a = b := by
  apply Nat.eq_of_testBit_eq
  intro i
  by_cases hi : i < n
  · have hmem : ∀ k : Nat, i ∈ (List.range n).filter (fun i => k.testBit i) ↔ k.testBit i = true := by
      intro k
      simp [List.mem_filter, hi]
    have := hmem a
    rw [h, hmem b] at this
    cases hA : a.testBit i <;> cases hB : b.testBit i <;> simp_all
  · have h2 : 2 ^ n ≤ 2 ^ i := Nat.pow_le_pow_right (by norm_num) (by omega)
    rw [Nat.testBit_lt_two_pow (lt_of_lt_of_le ha h2),
      Nat.testBit_lt_two_pow (lt_of_lt_of_le hb h2)]

theorem bits_filter_surjective (n : Nat) (ps : List Nat) (hps : ps.Sublist (List.range n)) :
    ∃ k, k < 2 ^ n ∧ (List.range n).filter (fun i => k.testBit i) = ps := by
  let f : Nat → List Nat := fun k => (List.range n).filter (fun i => k.testBit i)
  have hnd : ((List.range (2 ^ n)).map f).Nodup := by
    apply List.Nodup.map_on _ (List.nodup_range _)
    intro a ha b hb hab
    exact bits_filter_injective n a b (List.mem_range.1 ha) (List.mem_range.1 hb) hab
  have hsub : (List.range (2 ^ n)).map f ⊆ (List.range n).sublists := by
    intro s hs
    obtain ⟨k, -, rfl⟩ := List.mem_map.1 hs
    exact List.mem_sublists.2 (List.filter_sublist _)
  have hperm : ((List.range (2 ^ n)).map f).Perm (List.range n).sublists :=
    (List.subperm_of_subset hnd hsub).perm_of_length_le (by simp [List.length_sublists])
  have hmem : ps ∈ (List.range (2 ^ n)).map f :=
    hperm.mem_iff.2 (List.mem_sublists.2 hps)
  obtain ⟨k, hk, rfl⟩ := List.mem_map.1 hmem
  exact ⟨k, List.mem_range.1 hk, rfl⟩

/-- C4 (amended): for an input of `n < 63` elements the stream holds exactly
`2^n - 1` subsets, none empty; the `k`-th one (`k = 1 .. 2^n - 1`) lists, in input
order, the elements at the positions whose bit is set in `k`; and every non-empty
set of positions is the bit set of exactly one such `k`. -/
theorem Combinations_enumerates {α : Type} (set : List α) (hn : set.length < 63) :
    (Combinations set).length = 2 ^ set.length - 1 ∧
    (∀ s ∈ Combinations set, s ≠ []) ∧
    (∀ k, 1 ≤ k → k < 2 ^ set.length →
      (Combinations set)[k - 1]? =
        some (((List.range set.length).filter (fun i => k.testBit i)).filterMap
          (fun i => set[i]?)) ∧
      (((List.range set.length).filter (fun i => k.testBit i)).filterMap
          (fun i => set[i]?)).length =
        ((List.range set.length).filter (fun i => k.testBit i)).length) ∧
    (∀ ps : List Nat, ps ≠ [] → ps.Sublist (List.range set.length) →
      ∃! k, 1 ≤ k ∧ k < 2 ^ set.length ∧
        (List.range set.length).filter (fun i => k.testBit i) = ps) := by
  have hlim : (shiftLeftOne set.length).toNat = 2 ^ set.length := by
    rw [shiftLeftOne_small _ hn]
    have : ((2 : ℤ) ^ set.length) = ((2 ^ set.length : ℕ) : ℤ) := by push_cast; rfl
    rw [this, Int.toNat_natCast]
  have hlen : ∀ k : Nat,
      (((List.range set.length).filter (fun i => k.testBit i)).filterMap
          (fun i => set[i]?)).length =
        ((List.range set.length).filter (fun i => k.testBit i)).length := by
    intro k
    have hmap : ((List.range set.length).filter (fun i => k.testBit i)).filterMap
        (fun i => set[i]?) =
        (((List.range set.length).filter (fun i => k.testBit i)).attach.map
          (fun i => set.get ⟨i.1, List.mem_range.1 (List.mem_filter.1 i.2).1⟩)) := by
      conv_lhs => rw [← List.attach_map_subtype_val
        ((List.range set.length).filter (fun i => k.testBit i))]
      rw [List.filterMap_map, ← List.filterMap_eq_map]
      apply List.filterMap_congr
      intro i _
      have := List.mem_filter.1 i.2
      have hi : i.1 < set.length := List.mem_range.1 this.1
      simp [hi]
    rw [hmap]
    simp
  refine ⟨?_, ?_, ?_, ?_⟩
  · simp [Combinations, combinationsGenerator, hlim]
  · intro s hs
    simp only [Combinations, combinationsGenerator, hlim, List.mem_map, List.mem_range] at hs
    obtain ⟨j, hj, rfl⟩ := hs
    have hpos : 0 < 2 ^ set.length := by positivity
    obtain ⟨i, hi, hbit⟩ := exists_bit_lt set.length (j + 1) (by omega) (by omega)
    intro hnil
    have h0 := hlen (j + 1)
    rw [← subsetOf_eq, hnil] at h0
    have hmem : i ∈ (List.range set.length).filter (fun i => (j + 1).testBit i) := by
      simp [List.mem_filter, hi, hbit]
    have := List.length_pos_of_mem hmem
    simp at h0
    omega
  · intro k h1 h2
    refine ⟨?_, hlen k⟩
    simp only [Combinations, combinationsGenerator, hlim]
    rw [List.getElem?_map, List.getElem?_range (by omega)]
    simp only [Option.map_some']
    rw [subsetOf_eq]
    have : k - 1 + 1 = k := by omega
    rw [this]
  · intro ps hne hps
    obtain ⟨k, hk, hf⟩ := bits_filter_surjective set.length ps hps
    refine ⟨k, ⟨?_, hk, hf⟩, ?_⟩
    · by_contra h0
      have : k = 0 := by omega
      subst this
      apply hne
      rw [← hf]
      simp
    · rintro k' ⟨-, hk', hf'⟩
      exact bits_filter_injective set.length k' k hk' hk (hf'.trans hf.symm)

theorem Combinations_enumerates_witness :
    (["a", "b", "c"] : List String).length < 63 ∧
    ((Combinations ["a", "b", "c"]).length = 2 ^ (["a", "b", "c"] : List String).length - 1 ∧
    (∀ s ∈ Combinations ["a", "b", "c"], s ≠ []) ∧
    (∀ k, 1 ≤ k → k < 2 ^ (["a", "b", "c"] : List String).length →
      (Combinations ["a", "b", "c"])[k - 1]? =
        some (((List.range (["a", "b", "c"] : List String).length).filter
          (fun i => k.testBit i)).filterMap (fun i => (["a", "b", "c"] : List String)[i]?)) ∧
      (((List.range (["a", "b", "c"] : List String).length).filter
          (fun i => k.testBit i)).filterMap (fun i => (["a", "b", "c"] : List String)[i]?)).length =
        ((List.range (["a", "b", "c"] : List String).length).filter
          (fun i => k.testBit i)).length) ∧
    (∀ ps : List Nat, ps ≠ [] → ps.Sublist (List.range (["a", "b", "c"] : List String).length) →
      ∃! k, 1 ≤ k ∧ k < 2 ^ (["a", "b", "c"] : List String).length ∧
        (List.range (["a", "b", "c"] : List String).length).filter (fun i => k.testBit i) = ps)) :=
  ⟨by decide, Combinations_enumerates ["a", "b", "c"] (by decide)⟩

/-- Three elements give the seven non-empty subsets in bit-counter order. -/
theorem StringCombinations_abc :
    StringCombinations ["a", "b", "c"] =
      [["a"], ["b"], ["a", "b"], ["c"], ["a", "c"], ["b", "c"], ["a", "b", "c"]] := by
  decide

/-- C4 (as stated) fails: on 63 elements `1 << length` overflows to a negative
number, the loop body never runs and the stream is empty. -/
theorem Combinations_sixty_three :
    Combinations (List.replicate 63 "a") = [] ∧
    (Combinations (List.replicate 63 "a")).length ≠ 2 ^ (List.replicate 63 "a").length - 1 := by
  have h : Combinations (List.replicate 63 "a") = [] := by
    simp only [Combinations, combinationsGenerator, List.length_replicate]
    have : (shiftLeftOne 63).toNat = 0 := by decide
    rw [this]
    rfl
  refine ⟨h, ?_⟩
  rw [h]
  simp

/-! ### De-duplication -/

theorem foldl_uniqueStep (md5Sum : String → String) (xs : List InjectionObject)
    (found : List String) (acc : List InjectionObject) :
    (xs.foldl (uniqueStep md5Sum) (found, acc)).2 = acc ++ keepNew md5Sum found xs := by
  induction xs generalizing found acc with
  | nil => simp [keepNew]
  | cons x xs ih =>
    simp only [List.foldl_cons, uniqueStep, keepNew]
    by_cases h : x.Hash md5Sum ∈ found
    · simp [h, ih]
    · simp [h, ih]

theorem Unique_eq_keepNew (md5Sum : String → String) (xs : List InjectionObject) :
    Unique md5Sum xs = keepNew md5Sum [] xs := by
  simp [Unique, foldl_uniqueStep]

theorem keepNew_sublist (md5Sum : String → String) (xs : List InjectionObject)
    (found : List String) : (keepNew md5Sum found xs).Sublist xs := by
  induction xs generalizing found with
  | nil => simp [keepNew]
  | cons x xs ih =>
    simp only [keepNew]
    by_cases h : x.Hash md5Sum ∈ found
    · simp only [h, if_true]
      exact (ih _).trans (List.sublist_cons_self _ _)
    · simp only [h, if_false]
      exact (ih _).cons₂ _

theorem keepNew_not_found (md5Sum : String → String) (xs : List InjectionObject)
    (found : List String) : ∀ y ∈ keepNew md5Sum found xs, y.Hash md5Sum ∉ found := by
  induction xs generalizing found with
  | nil => simp [keepNew]
  | cons x xs ih =>
    intro y hy
    simp only [keepNew] at hy
    by_cases h : x.Hash md5Sum ∈ found
    · simp only [h, if_true] at hy
      exact fun hc => ih _ y hy (List.mem_cons_of_mem _ hc)
    · simp only [h, if_false, List.mem_cons] at hy
      rcases hy with rfl | hy
      · exact h
      · exact fun hc => ih _ y hy (List.mem_cons_of_mem _ hc)

theorem keepNew_nodup (md5Sum : String → String) (xs : List InjectionObject)
    (found : List String) : ((keepNew md5Sum found xs).map (fun y => y.Hash md5Sum)).Nodup := by
  induction xs generalizing found with
  | nil => simp [keepNew]
  | cons x xs ih =>
    simp only [keepNew]
    by_cases h : x.Hash md5Sum ∈ found
    · simp only [h, if_true]
      exact ih _
    · simp only [h, if_false, List.map_cons, List.nodup_cons]
      refine ⟨?_, ih _⟩
      intro hc
      obtain ⟨y, hy, hyx⟩ := List.mem_map.1 hc
      exact keepNew_not_found md5Sum xs _ y hy (by simp [hyx])

theorem keepNew_find (md5Sum : String → String) (xs : List InjectionObject)
    (found : List String) (c : String) :
    (keepNew md5Sum found xs).find? (fun y => decide (y.Hash md5Sum = c)) =
      if c ∈ found then none else xs.find? (fun y => decide (y.Hash md5Sum = c)) := by
  induction xs generalizing found with
  | nil => simp [keepNew]
  | cons x xs ih =>
    simp only [keepNew]
    by_cases h : x.Hash md5Sum ∈ found
    · simp only [h, if_true, ih]
      by_cases hc : c ∈ found
      · simp [hc]
      · have hne : ¬ x.Hash md5Sum = c := fun e => hc (e ▸ h)
        have hne' : ¬ c = x.Hash md5Sum := fun e => hne e.symm
        simp [hc, hne, hne', List.find?_cons]
    · simp only [h, if_false, List.find?_cons]
      by_cases hx : x.Hash md5Sum = c
      · have hc : c ∉ found := hx ▸ h
        simp [hx, hc]
      · have hne' : ¬ c = x.Hash md5Sum := fun e => hx e.symm
        simp [hx, ih, hne']

theorem keepNew_fixed (md5Sum : String → String) (ys : List InjectionObject)
    (found : List String) (hnd : (ys.map (fun y => y.Hash md5Sum)).Nodup)
    (hnf : ∀ y ∈ ys, y.Hash md5Sum ∉ found) : keepNew md5Sum found ys = ys := by
  induction ys generalizing found with
  | nil => simp [keepNew]
  | cons y ys ih =>
    simp only [List.map_cons, List.nodup_cons] at hnd
    have hy : y.Hash md5Sum ∉ found := hnf y (List.mem_cons_self _ _)
    simp only [keepNew, hy, if_false]
    congr 1
    apply ih _ hnd.2
    intro z hz hc
    rcases List.mem_cons.1 hc with e | hc
    · exact hnd.1 (List.mem_map.2 ⟨z, hz, e⟩)
    · exact hnf z (List.mem_cons_of_mem _ hz) hc

/-- C5: `Unique xs` is a subsequence of `xs` with pairwise distinct fingerprints,
every fingerprint of `xs` occurs in it, and the finding it holds for a fingerprint
is the first finding of `xs` with that fingerprint. -/
theorem Unique_spec (md5Sum : String → String) (xs : List InjectionObject) :
    (Unique md5Sum xs).Sublist xs ∧
    ((Unique md5Sum xs).map (fun y => y.Hash md5Sum)).Nodup ∧
    (∀ x ∈ xs, ∃ y ∈ Unique md5Sum xs, y.Hash md5Sum = x.Hash md5Sum) ∧
    (∀ c : String, (Unique md5Sum xs).find? (fun y => decide (y.Hash md5Sum = c)) =
      xs.find? (fun y => decide (y.Hash md5Sum = c))) := by
  have hfind : ∀ c : String, (Unique md5Sum xs).find? (fun y => decide (y.Hash md5Sum = c)) =
      xs.find? (fun y => decide (y.Hash md5Sum = c)) := by
    intro c
    rw [Unique_eq_keepNew, keepNew_find]
    simp
  refine ⟨?_, ?_, ?_, hfind⟩
  · rw [Unique_eq_keepNew]; exact keepNew_sublist _ _ _
  · rw [Unique_eq_keepNew]; exact keepNew_nodup _ _ _
  · intro x hx
    have h1 : (xs.find? (fun y => decide (y.Hash md5Sum = x.Hash md5Sum))).isSome = true := by
      rw [List.find?_isSome]
      exact ⟨x, hx, by simp⟩
    rw [← hfind] at h1
    obtain ⟨y, hy⟩ := Option.isSome_iff_exists.1 h1
    refine ⟨y, List.mem_of_find?_eq_some hy, ?_⟩
    have := List.find?_some hy
    simpa using this

/-- C6: `Unique` is idempotent. -/
theorem Unique_idempotent (md5Sum : String → String) (xs : List InjectionObject) :
    Unique md5Sum (Unique md5Sum xs) = Unique md5Sum xs := by
  rw [Unique_eq_keepNew md5Sum (Unique md5Sum xs)]
  apply keepNew_fixed
  · rw [Unique_eq_keepNew]; exact keepNew_nodup _ _ _
  · intro y _; simp

theorem Unique_nil (md5Sum : String → String) : Unique md5Sum [] = [] := rfl

theorem foldl_uniqueStep_found (md5Sum : String → String) (xs : List InjectionObject)
    (found : List String) (acc : List InjectionObject) :
    ∀ c, c ∈ (xs.foldl (uniqueStep md5Sum) (found, acc)).1 ↔
      c ∈ found ∨ ∃ y ∈ xs, y.Hash md5Sum = c := by
  induction xs generalizing found acc with
  | nil => simp
  | cons x xs ih =>
    intro c
    simp only [List.foldl_cons]
    rw [show uniqueStep md5Sum (found, acc) x =
      (x.Hash md5Sum :: found, (uniqueStep md5Sum (found, acc) x).2) from rfl, ih]
    simp only [List.mem_cons]
    constructor
    · rintro ((rfl | h) | ⟨y, hy, rfl⟩)
      · exact Or.inr ⟨x, Or.inl rfl, rfl⟩
      · exact Or.inl h
      · exact Or.inr ⟨y, Or.inr hy, rfl⟩
    · rintro (h | ⟨y, rfl | hy, rfl⟩)
      · exact Or.inl (Or.inr h)
      · exact Or.inl (Or.inl rfl)
      · exact Or.inr ⟨y, hy, rfl⟩

theorem Unique_snoc (md5Sum : String → String) (xs : List InjectionObject)
    (x : InjectionObject) :
    Unique md5Sum (xs ++ [x]) =
      if (∃ y ∈ xs, y.Hash md5Sum = x.Hash md5Sum) then Unique md5Sum xs
      else Unique md5Sum xs ++ [x] := by
  unfold Unique
  rw [List.foldl_append]
  simp only [List.foldl_cons, List.foldl_nil, uniqueStep]
  have h := foldl_uniqueStep_found md5Sum xs [] [] (x.Hash md5Sum)
  simp only [List.not_mem_nil, false_or] at h
  by_cases hx : ∃ y ∈ xs, y.Hash md5Sum = x.Hash md5Sum
  · rw [if_pos hx, if_pos (h.2 hx)]
  · rw [if_neg hx, if_neg (fun hc => hx (h.1 hc))]

/-- C7: `run` reports the plain concatenation of the three detectors' findings.  When
the error detector returns two findings with the same fingerprint (body `{"a":"a"}`,
both placements of `a` answered with a MongoError), both are reported, whereas
de-duplication by fingerprint keeps the first only. -/
theorem runFindings_keeps_duplicates (md5Sum : String → String) :
    runFindings [sampleErrorFinding "\x7b\x27:\"a\"\x7d", sampleErrorFinding "\x7b\"a\":\x27\x7d"] [] [] =
      [sampleErrorFinding "\x7b\x27:\"a\"\x7d", sampleErrorFinding "\x7b\"a\":\x27\x7d"] ∧
    (sampleErrorFinding "\x7b\x27:\"a\"\x7d").serial = (sampleErrorFinding "\x7b\"a\":\x27\x7d").serial ∧
    Unique md5Sum ([sampleErrorFinding "\x7b\x27:\"a\"\x7d", sampleErrorFinding "\x7b\"a\":\x27\x7d"] ++ [] ++ []) =
      [sampleErrorFinding "\x7b\x27:\"a\"\x7d"] ∧
    runReport [sampleErrorFinding "\x7b\x27:\"a\"\x7d", sampleErrorFinding "\x7b\"a\":\x27\x7d"] [] [] =
      (sampleErrorFinding "\x7b\x27:\"a\"\x7d").String ++ (sampleErrorFinding "\x7b\"a\":\x27\x7d").String := by
  have hs : (sampleErrorFinding "\x7b\x27:\"a\"\x7d").serial = (sampleErrorFinding "\x7b\"a\":\x27\x7d").serial := by
    decide
  refine ⟨rfl, hs, ?_, ?_⟩
  · simp [Unique, uniqueStep, InjectionObject.Hash, hs]
  · simp [runReport, runFindings, display]

/-- C8 (as stated) fails: two findings with different injectable and injected
parameters are digested as the same string, and `Unique` removes the second. -/
theorem Hash_confuses_components :
    findingAB.serial = findingAB2.serial ∧
    findingAB.InjectableParam ≠ findingAB2.InjectableParam ∧
    findingAB.InjectedParam ≠ findingAB2.InjectedParam ∧
    ∀ md5Sum : String → String, Unique md5Sum [findingAB, findingAB2] = [findingAB] := by
  have hs : findingAB.serial = findingAB2.serial := by decide
  refine ⟨hs, by decide, by decide, ?_⟩
  intro md5Sum
  simp [Unique, uniqueStep, InjectionObject.Hash, hs]

theorem string_append_left_cancel (p x y : String) : p ++ x = p ++ y ↔ x = y := by
  constructor
  · intro h
    have := congrArg String.data h
    simp only [String.data_append, List.append_cancel_left_eq] at this
    exact String.ext this
  · intro h; rw [h]

theorem serial_head (a : InjectionObject) (c : Char) (rest : List Char)
    (h : a.Type_.String.data = c :: rest) : a.serial.data.head? = some c := by
  simp [InjectionObject.serial, String.data_append, h]

/-- C8 (amended): the fingerprint is the digest of the concatenation, without
separators, of kind string, url, injectable-param, injected-param and injected-value.
Two findings that agree on the five components have the same digested string and the
same fingerprint; findings of the four named kinds with the same digested string have
the same kind, and findings that agree on the first four components have the same
digested string only if they agree on the injected value.  `Unique` removes a finding
exactly when an earlier finding of the list has the same fingerprint. -/
theorem Hash_of_components (md5Sum : String → String) :
    (∀ a : InjectionObject,
      a.serial = a.Type_.String ++ a.AttackObject.Request.URL.String ++ a.InjectableParam
        ++ a.InjectedParam ++ a.InjectedValue ∧
      a.Hash md5Sum = md5Sum (a.Type_.String ++ a.AttackObject.Request.URL.String
        ++ a.InjectableParam ++ a.InjectedParam ++ a.InjectedValue)) ∧
    (∀ a b : InjectionObject, a.Type_ = b.Type_ →
      a.AttackObject.Request.URL.String = b.AttackObject.Request.URL.String →
      a.InjectableParam = b.InjectableParam → a.InjectedParam = b.InjectedParam →
      a.InjectedValue = b.InjectedValue →
      a.serial = b.serial ∧ a.Hash md5Sum = b.Hash md5Sum) ∧
    (∀ a b : InjectionObject,
      (a.Type_ = Blind ∨ a.Type_ = Timed ∨ a.Type_ = Error ∨ a.Type_ = GetParam) →
      (b.Type_ = Blind ∨ b.Type_ = Timed ∨ b.Type_ = Error ∨ b.Type_ = GetParam) →
      a.serial = b.serial → a.Type_ = b.Type_) ∧
    (∀ a b : InjectionObject, a.Type_ = b.Type_ →
      a.AttackObject.Request.URL.String = b.AttackObject.Request.URL.String →
      a.InjectableParam = b.InjectableParam → a.InjectedParam = b.InjectedParam →
      (a.serial = b.serial ↔ a.InjectedValue = b.InjectedValue)) ∧
    Unique md5Sum [] = [] ∧
    (∀ (xs : List InjectionObject) (x : InjectionObject),
      Unique md5Sum (xs ++ [x]) =
        if (∃ y ∈ xs, y.Hash md5Sum = x.Hash md5Sum) then Unique md5Sum xs
        else Unique md5Sum xs ++ [x]) := by
  refine ⟨fun a => ⟨rfl, rfl⟩, ?_, ?_, ?_, rfl, Unique_snoc md5Sum⟩
  · intro a b h1 h2 h3 h4 h5
    have : a.serial = b.serial := by
      simp only [InjectionObject.serial, h1, h2, h3, h4, h5]
    exact ⟨this, by simp only [InjectionObject.Hash, this]⟩
  · intro a b ha hb h
    have hB : ∀ x : InjectionObject, x.Type_ = Blind → x.serial.data.head? = some 'B' :=
      fun x hx => serial_head x 'B' "lind NoSQL Injection".data (by rw [hx]; rfl)
    have hT : ∀ x : InjectionObject, x.Type_ = Timed → x.serial.data.head? = some 'T' :=
      fun x hx => serial_head x 'T' "iming based NoSQL Injection".data (by rw [hx]; rfl)
    have hE : ∀ x : InjectionObject, x.Type_ = Error → x.serial.data.head? = some 'E' :=
      fun x hx => serial_head x 'E' "rror based NoSQL Injection".data (by rw [hx]; rfl)
    have hG : ∀ x : InjectionObject, x.Type_ = GetParam → x.serial.data.head? = some 'G' :=
      fun x hx => serial_head x 'G' "et Parameter NoSQL Injection".data (by rw [hx]; rfl)
    have hh : a.serial.data.head? = b.serial.data.head? := by rw [h]
    rcases ha with ha | ha | ha | ha <;> rcases hb with hb | hb | hb | hb <;>
      first
      | (exact ha.trans hb.symm)
      | (exfalso
         first
         | (rw [hB a ha, hT b hb] at hh; exact absurd hh (by decide))
         | (rw [hB a ha, hE b hb] at hh; exact absurd hh (by decide))
         | (rw [hB a ha, hG b hb] at hh; exact absurd hh (by decide))
         | (rw [hT a ha, hB b hb] at hh; exact absurd hh (by decide))
         | (rw [hT a ha, hE b hb] at hh; exact absurd hh (by decide))
         | (rw [hT a ha, hG b hb] at hh; exact absurd hh (by decide))
         | (rw [hE a ha, hB b hb] at hh; exact absurd hh (by decide))
         | (rw [hE a ha, hT b hb] at hh; exact absurd hh (by decide))
         | (rw [hE a ha, hG b hb] at hh; exact absurd hh (by decide))
         | (rw [hG a ha, hB b hb] at hh; exact absurd hh (by decide))
         | (rw [hG a ha, hT b hb] at hh; exact absurd hh (by decide))
         | (rw [hG a ha, hE b hb] at hh; exact absurd hh (by decide)))
  · intro a b h1 h2 h3 h4
    simp only [InjectionObject.serial, h1, h2, h3, h4]
    exact string_append_left_cancel _ _ _

theorem Hash_of_components_witness :
    ((sampleErrorFinding "x").serial =
        "Error based NoSQL Injection" ++ "http://127.0.0.1:8080/users" ++ "a" ++ "\x27" ++ "" ∧
      (sampleErrorFinding "x").Hash id =
        "Error based NoSQL Injection" ++ "http://127.0.0.1:8080/users" ++ "a" ++ "\x27" ++ "") ∧
    ((sampleErrorFinding "x").serial = (sampleErrorFinding "y").serial ∧
      (sampleErrorFinding "x").Hash id = (sampleErrorFinding "y").Hash id) ∧
    (sampleErrorFinding "x").Type_ = findingAB.Type_ ∧
    ((sampleErrorFinding "x").serial = ({ sampleErrorFinding "x" with InjectedValue := "z" } :
        InjectionObject).serial ↔
      (sampleErrorFinding "x").InjectedValue = ({ sampleErrorFinding "x" with InjectedValue := "z" } :
        InjectionObject).InjectedValue) ∧
    Unique id ([findingAB] ++ [sampleErrorFinding "x"]) =
      (if (∃ y ∈ [findingAB], y.Hash id = (sampleErrorFinding "x").Hash id) then
        Unique id [findingAB]
      else Unique id [findingAB] ++ [sampleErrorFinding "x"]) :=
  ⟨(Hash_of_components id).1 (sampleErrorFinding "x"),
    (Hash_of_components id).2.1 (sampleErrorFinding "x") (sampleErrorFinding "y")
      rfl rfl rfl rfl rfl,
    rfl,
    (Hash_of_components id).2.2.2.1 (sampleErrorFinding "x")
      { sampleErrorFinding "x" with InjectedValue := "z" } rfl rfl rfl rfl,
    (Hash_of_components id).2.2.2.2.2 [findingAB] (sampleErrorFinding "x")⟩

/-! ### Positional replacement -/

theorem strReplace_examples :
    strReplace "a-b-c" "-" "+" (-1) = "a+b+c" ∧
    strReplace "a-b-c" "-" "+" 1 = "a-b+c" ∧
    strReplace "a-b-" "-" "+" 1 = "a-b+" ∧
    strReplace "a-b-" "-" "+" 2 = "a-b-+" ∧
    strReplace "a-b-" "-" "+" 3 = "a-b-" ∧
    strReplace "aaa" "aa" "X" 1 = "aaaX" ∧
    Split "a-b-".data "-".data = ["a".data, "b".data, []] := by
  decide

theorem intercalate_singleton (p c : List Char) : List.intercalate p [c] = c := by
  simp [List.intercalate]

theorem intercalate_cons_cons (p c d : List Char) (rest : List (List Char)) :
    List.intercalate p (c :: d :: rest) = c ++ p ++ List.intercalate p (d :: rest) := by
  simp [List.intercalate]

theorem Index_spec (sep : List Char) (s : List Char) (m : Nat) (h : Index sep s = some m) :
    s = s.take m ++ sep ++ s.drop (m + sep.length) := by
  induction s generalizing m with
  | nil =>
    simp only [Index] at h
    split at h
    · rename_i hp
      cases sep with
      | nil => simp
      | cons a t => simp [List.isPrefixOf] at hp
    · cases h
  | cons c t ih =>
    simp only [Index] at h
    split at h
    · rename_i hp
      cases h
      obtain ⟨r, hr⟩ := List.isPrefixOf_iff_prefix.1 hp
      rw [← hr]
      simp
    · cases hI : Index sep t with
      | none => rw [hI] at h; cases h
      | some k =>
        rw [hI] at h
        simp only [Option.map_some', Option.some.injEq] at h
        subst h
        have := ih k hI
        rw [show k + 1 + sep.length = (k + sep.length) + 1 by omega]
        simp only [List.take_succ_cons, List.drop_succ_cons, List.cons_append]
        exact congrArg (List.cons c) this

theorem genSplit_intercalate (sep : List Char) (fuel : Nat) (s : List Char) :
    List.intercalate sep (genSplit sep fuel s) = s := by
  induction fuel generalizing s with
  | zero => simp [genSplit, intercalate_singleton]
  | succ n ih =>
    simp only [genSplit]
    cases hI : Index sep s with
    | none => simp [intercalate_singleton]
    | some m =>
      simp only
      have hne : ∃ d rest, genSplit sep n (s.drop (m + sep.length)) = d :: rest := by
        cases n with
        | zero => exact ⟨_, _, rfl⟩
        | succ k =>
          simp only [genSplit]
          cases Index sep (s.drop (m + sep.length)) with
          | none => exact ⟨_, _, rfl⟩
          | some j => exact ⟨_, _, rfl⟩
      obtain ⟨d, rest, hd⟩ := hne
      have := ih (s.drop (m + sep.length))
      rw [hd] at this ⊢
      rw [intercalate_cons_cons, this]
      exact (Index_spec sep s m hI).symm

theorem genSplit_ne_nil (sep : List Char) (fuel : Nat) (s : List Char) :
    genSplit sep fuel s ≠ [] := by
  cases fuel with
  | zero => simp [genSplit]
  | succ k =>
    simp only [genSplit]
    cases Index sep s <;> simp

theorem replaceLoop_eq (old new : List Char) (fuel : Nat) (s : List Char) :
    replaceLoop old new fuel s = List.intercalate new (genSplit old fuel s) := by
  induction fuel generalizing s with
  | zero => simp [genSplit, replaceLoop, intercalate_singleton]
  | succ n ih =>
    simp only [genSplit, replaceLoop]
    cases hI : Index old s with
    | none => simp [intercalate_singleton]
    | some m =>
      simp only
      obtain ⟨d, rest, hd⟩ := List.exists_cons_of_ne_nil
        (genSplit_ne_nil old n (s.drop (m + old.length)))
      rw [ih, hd, intercalate_cons_cons]

theorem strReplaceLoop_other (source p r : List Char) (index : Int) (len : Nat)
    (cs : List (List Char)) (i : Nat) (acc : List Char) (hne : cs ≠ [])
    (hlen : i + cs.length = len)
    (hidx : ∀ k : Nat, i ≤ k → k < len → (k : Int) ≠ index) :
    strReplaceLoop source p r index len i cs acc = acc ++ List.intercalate p cs := by
  induction cs generalizing i acc with
  | nil => exact absurd rfl hne
  | cons c rest ih =>
    have hi : (i : Int) ≠ index := hidx i (le_refl _) (by simp at hlen; omega)
    cases rest with
    | nil =>
      simp only [List.length_cons, List.length_nil] at hlen
      have h1 : (i : Int) = (len : Int) - 1 := by omega
      have h2 : ¬ ((i : Int) = index ∧ HasSuffix source p = true) := fun h => hi h.1
      rw [strReplaceLoop, if_pos h1]
      simp only [if_neg h2, strReplaceLoop, intercalate_singleton]
    | cons d rest' =>
      simp only [List.length_cons] at hlen
      have h1 : ¬ (i : Int) = (len : Int) - 1 := by omega
      rw [strReplaceLoop, if_neg h1, if_neg hi, ih (i + 1) _ (by simp)
        (by simp only [List.length_cons]; omega)
        (fun k hk hk' => hidx k (by omega) hk'), intercalate_cons_cons]
      simp

theorem strReplaceLoop_last (source p r : List Char) (len : Nat)
    (cs : List (List Char)) (i : Nat) (acc : List Char) (hne : cs ≠ [])
    (hlen : i + cs.length = len) :
    strReplaceLoop source p r ((len : Int) - 1) len i cs acc =
      acc ++ List.intercalate p cs ++ (if HasSuffix source p = true then r else []) := by
  induction cs generalizing i acc with
  | nil => exact absurd rfl hne
  | cons c rest ih =>
    cases rest with
    | nil =>
      simp only [List.length_cons, List.length_nil] at hlen
      have h1 : (i : Int) = (len : Int) - 1 := by omega
      simp only [strReplaceLoop, h1, if_true, true_and, intercalate_singleton]
      by_cases hs : HasSuffix source p = true
      · simp [hs]
      · simp [hs]
    | cons d rest' =>
      simp only [List.length_cons] at hlen
      have h1 : ¬ (i : Int) = (len : Int) - 1 := by omega
      rw [strReplaceLoop, if_neg h1, if_neg h1, ih (i + 1) _ (by simp)
        (by simp only [List.length_cons]; omega), intercalate_cons_cons]
      simp

theorem strReplaceLoop_inner (source p r : List Char) (len : Nat) (d : Nat)
    (cs : List (List Char)) (i : Nat) (acc : List Char)
    (hlen : i + cs.length = len) (hd : d + 1 < cs.length) :
    strReplaceLoop source p r ((i + d : Nat) : Int) len i cs acc =
      acc ++ List.intercalate p (cs.take (d + 1)) ++ r ++
        List.intercalate p (cs.drop (d + 1)) := by
  induction d generalizing cs i acc with
  | zero =>
    match cs, hd with
    | c :: e :: rest, _ =>
      simp only [List.length_cons] at hlen
      have h1 : ¬ (i : Int) = (len : Int) - 1 := by omega
      rw [strReplaceLoop, if_neg h1, if_pos (by simp)]
      rw [strReplaceLoop_other source p r _ len (e :: rest) (i + 1) _ (by simp)
        (by simp only [List.length_cons]; omega)
        (fun k hk _ => by simp only [Nat.add_zero]; omega)]
      simp [intercalate_singleton]
  | succ n ih =>
    match cs, hd with
    | c :: e :: rest, hd =>
      simp only [List.length_cons] at hlen hd
      have h1 : ¬ (i : Int) = (len : Int) - 1 := by omega
      have h2 : ¬ (i : Int) = ((i + (n + 1) : Nat) : Int) := by omega
      rw [strReplaceLoop, if_neg h1, if_neg h2]
      have := ih (e :: rest) (i + 1) (acc ++ c ++ p) (by simp only [List.length_cons]; omega)
        (by simp only [List.length_cons]; omega)
      rw [show i + 1 + n = i + (n + 1) by omega] at this
      rw [this]
      simp only [List.take_succ_cons, List.drop_succ_cons]
      rw [intercalate_cons_cons]
      simp

theorem Index_nil_of_ne (sep : List Char) (hsep : sep ≠ []) : Index sep [] = none := by
  cases sep with
  | nil => exact absurd rfl hsep
  | cons a t => simp [Index, List.isPrefixOf]

theorem genSplit_last (sep : List Char) (hsep : sep ≠ []) (fuel : Nat) (s : List Char)
    (hfuel : s.length ≤ fuel) :
    ∀ last, (genSplit sep fuel s).getLast? = some last → Index sep last = none := by
  induction fuel generalizing s with
  | zero =>
    intro last h
    have hs : s = [] := List.length_eq_zero.1 (by omega)
    subst hs
    simp only [genSplit, List.getLast?_singleton, Option.some.injEq] at h
    subst h
    exact Index_nil_of_ne sep hsep
  | succ n ih =>
    intro last h
    simp only [genSplit] at h
    cases hI : Index sep s with
    | none =>
      rw [hI] at h
      simp only [List.getLast?_singleton, Option.some.injEq] at h
      subst h
      exact hI
    | some m =>
      rw [hI] at h
      simp only at h
      obtain ⟨d, rest, hd⟩ := List.exists_cons_of_ne_nil
        (genSplit_ne_nil sep n (s.drop (m + sep.length)))
      rw [hd, List.getLast?_cons_cons, ← hd] at h
      apply ih (s.drop (m + sep.length)) _ last h
      have hpos : 0 < sep.length := List.length_pos.2 hsep
      have hlen := congrArg List.length (Index_spec sep s m hI)
      simp only [List.length_append, List.length_take, List.length_drop] at hlen
      simp only [List.length_drop]
      omega

/-- Behaviour of `strReplace` for a non-empty pattern, with `cs` the components of
`strings.Split(source, pattern)` (so `source` is `cs` joined by `pattern`, and the last
component holds no occurrence): index `-1` replaces every occurrence; an index of an
existing occurrence replaces that occurrence only; any other index returns `source`
unchanged, except that the index equal to the number of occurrences, on a `source`
that ends with `pattern`, appends `replacement` to `source`. -/
theorem strReplace_spec (source pattern replacement : String) (index : Int)
    (hp : pattern ≠ "") :
    List.intercalate pattern.data (Split source.data pattern.data) = source.data ∧
    (∀ last, (Split source.data pattern.data).getLast? = some last →
      Index pattern.data last = none) ∧
    (index = -1 → (strReplace source pattern replacement index).data =
      List.intercalate replacement.data (Split source.data pattern.data)) ∧
    (0 ≤ index → index + 1 < (Split source.data pattern.data).length →
      (strReplace source pattern replacement index).data =
        List.intercalate pattern.data ((Split source.data pattern.data).take (index.toNat + 1))
          ++ replacement.data ++
        List.intercalate pattern.data ((Split source.data pattern.data).drop (index.toNat + 1))) ∧
    (index < -1 ∨ ((Split source.data pattern.data).length : Int) ≤ index + 1 →
      strReplace source pattern replacement index =
        if index + 1 = (Split source.data pattern.data).length ∧
            HasSuffix source.data pattern.data = true then source ++ replacement
        else source) := by
  have hsep : pattern.data ≠ [] := fun h => hp (String.ext h)
  have hS : Split source.data pattern.data = genSplit pattern.data source.data.length source.data := by
    simp [Split, hsep]
  have hjoin := genSplit_intercalate pattern.data source.data.length source.data
  have hne := genSplit_ne_nil pattern.data source.data.length source.data
  rw [hS]
  refine ⟨hjoin, genSplit_last _ hsep _ _ (le_refl _), ?_, ?_, ?_⟩
  · intro h
    subst h
    simp [strReplace, ReplaceAll, hsep, replaceLoop_eq]
  · intro h0 h1
    have hi : index ≠ -1 := by omega
    obtain ⟨d, rfl⟩ : ∃ d : Nat, index = (d : Int) := ⟨index.toNat, (Int.toNat_of_nonneg h0).symm⟩
    simp only [strReplace, hi, if_false, hS, Int.toNat_natCast]
    have := strReplaceLoop_inner source.data pattern.data replacement.data
      (genSplit pattern.data source.data.length source.data).length d
      (genSplit pattern.data source.data.length source.data) 0 [] (by simp) (by omega)
    simp only [Nat.zero_add, List.nil_append] at this
    exact this
  · intro h
    by_cases hlast : index + 1 = ((genSplit pattern.data source.data.length source.data).length : Int)
    · have hi : index ≠ -1 := by
        have := List.length_pos.2 hne
        omega
      have hidx : index = ((genSplit pattern.data source.data.length source.data).length : Int) - 1 := by
        omega
      simp only [strReplace, hi, if_false, hS]
      rw [hidx, strReplaceLoop_last _ _ _ _ _ _ _ hne (by simp), hjoin]
      simp only [sub_add_cancel, true_and, List.nil_append]
      by_cases hs : HasSuffix source.data pattern.data = true
      · simp only [hs, if_true]
        apply String.ext
        simp
      · simp [hs]
    · have hi : index ≠ -1 := by
        rcases h with h | h
        · omega
        · have := List.length_pos.2 hne
          omega
      simp only [strReplace, hi, if_false, hS, hlast, false_and]
      rw [strReplaceLoop_other _ _ _ _ _ _ _ _ hne (by simp), hjoin]
      · simp
      · intro k _ hk
        rcases h with h | h <;> omega

theorem strReplace_spec_witness :
    ("-" : String) ≠ "" ∧
    (List.intercalate "-".data (Split "a-b-".data "-".data) = "a-b-".data ∧
    (∀ last, (Split "a-b-".data "-".data).getLast? = some last → Index "-".data last = none) ∧
    ((1 : Int) = -1 → (strReplace "a-b-" "-" "+" 1).data =
      List.intercalate "+".data (Split "a-b-".data "-".data)) ∧
    (0 ≤ (1 : Int) → (1 : Int) + 1 < (Split "a-b-".data "-".data).length →
      (strReplace "a-b-" "-" "+" 1).data =
        List.intercalate "-".data ((Split "a-b-".data "-".data).take ((1 : Int).toNat + 1))
          ++ "+".data ++
        List.intercalate "-".data ((Split "a-b-".data "-".data).drop ((1 : Int).toNat + 1))) ∧
    ((1 : Int) < -1 ∨ ((Split "a-b-".data "-".data).length : Int) ≤ (1 : Int) + 1 →
      strReplace "a-b-" "-" "+" 1 =
        if (1 : Int) + 1 = (Split "a-b-".data "-".data).length ∧
            HasSuffix "a-b-".data "-".data = true then "a-b-" ++ "+"
        else "a-b-")) :=
  ⟨by decide, strReplace_spec "a-b-" "-" "+" 1 (by decide)⟩

/-- C9: the suffix guard of `strReplace` is off by one.  `ab` has one occurrence of `b`
(index 0) and none of index 1; with index 1 the guard `i == index &&
strings.HasSuffix(source, pattern)` fires on the last component and the replacement is
appended, where the source should come back unchanged. -/
theorem strReplace_appends_after_suffix :
    Split "ab".data "b".data = ["a".data, []] ∧
    strReplace "ab" "b" "X" 1 = "abX" ∧
    strReplace "ab" "b" "X" 1 ≠ "ab" := by
  decide

/-! ### Body mutation -/

theorem jsonType_examples :
    jsonType "a" = "string" ∧
    jsonType "\"a\"" = "string" ∧
    jsonType "12" = "number" ∧
    jsonType "true" = "boolean" ∧
    jsonType "truex" = "string" ∧
    jsonType "null" = "null" ∧
    jsonType "\x7b\"$regex\": \".*\"\x7d" = "object" ∧
    jsonType "[1,\"]\"]" = "array" ∧
    jsonType "[1,\"]\"" = "string" := by
  decide

theorem intercalate_length (p : List Char) (cs : List (List Char)) :
    (List.intercalate p cs).length + p.length =
      (cs.map List.length).sum + cs.length * p.length + (if cs = [] then p.length else 0) := by
  induction cs with
  | nil => simp [List.intercalate]
  | cons c rest ih =>
    cases rest with
    | nil => simp [intercalate_singleton]
    | cons d rest' =>
      rw [intercalate_cons_cons]
      simp only [List.length_append, List.map_cons, List.sum_cons, List.length_cons,
        reduceCtorEq, if_false] at ih ⊢
      have hmul : (rest'.length + 1 + 1) * p.length = (rest'.length + 1) * p.length + p.length := by
        ring
      omega

theorem ReplaceAll_same (s p : List Char) : ReplaceAll s p p = s := by
  unfold ReplaceAll
  by_cases hp : p = []
  · subst hp
    simp only [if_true, List.nil_append]
    induction s with
    | nil => rfl
    | cons c t ih => simp [List.flatMap_cons, ih]
  · rw [if_neg hp, replaceLoop_eq, genSplit_intercalate]

theorem strReplace_same (body v : String) : strReplace body v v (-1) = body := by
  simp [strReplace, ReplaceAll_same]

theorem ReplaceAll_unchanged_iff (s p q : List Char) (hp : p ≠ [])
    (hlen : q.length < p.length) :
    ReplaceAll s p q = s ↔ Index p s = none := by
  unfold ReplaceAll
  rw [if_neg hp, replaceLoop_eq]
  constructor
  · intro h
    cases hI : Index p s with
    | none => rfl
    | some m =>
      exfalso
      have hspec := congrArg List.length (Index_spec p s m hI)
      simp only [List.length_append, List.length_take, List.length_drop] at hspec
      have hpos : 0 < p.length := List.length_pos.2 hp
      obtain ⟨n, hn⟩ : ∃ n, s.length = n + 1 := ⟨s.length - 1, by omega⟩
      have hj := genSplit_intercalate p s.length s
      rw [hn] at h hj
      simp only [genSplit, hI] at h hj
      obtain ⟨d, rest, hd⟩ := List.exists_cons_of_ne_nil
        (genSplit_ne_nil p n (s.drop (m + p.length)))
      rw [hd] at h hj
      have h1 := intercalate_length q (s.take m :: d :: rest)
      have h2 := intercalate_length p (s.take m :: d :: rest)
      rw [h] at h1
      rw [hj] at h2
      simp only [List.map_cons, List.sum_cons, List.length_cons, reduceCtorEq, if_false] at h1 h2
      have e1 : (rest.length + 1 + 1) * q.length = rest.length * q.length + q.length + q.length := by
        ring
      have e2 : (rest.length + 1 + 1) * p.length = rest.length * p.length + p.length + p.length := by
        ring
      have e3 : rest.length * q.length ≤ rest.length * p.length :=
        Nat.mul_le_mul_left _ (le_of_lt hlen)
      omega
  · intro h
    cases hs : s.length with
    | zero => simp [genSplit, intercalate_singleton]
    | succ n => simp [genSplit, h, intercalate_singleton]

theorem quoted_data (v : String) : ("\"" ++ v ++ "\"").data = '"' :: (v.data ++ ['"']) := by
  simp [String.data_append]

/-- C10 (amended): on a request whose body is handled as JSON,
`ReplaceBodyObject(v, v, false, -1)` with a pattern `v` of JSON type string replaces
every occurrence of `v` enclosed in double quotes by the bare `v`, so that the body is
unchanged exactly when the quoted `v` does not occur in it; with a pattern of JSON type
object or array the body is unchanged. -/
theorem ReplaceBodyObject_same (lib : Library) (a : AttackObject) (v : String)
    (hjson : a.bodyIsJSON lib = true) :
    (jsonType v = "string" →
      (a.ReplaceBodyObject lib v v false (-1)).map (fun r => r.Body.data) =
        some (List.intercalate v.data (Split a.Body.data ("\"" ++ v ++ "\"").data)) ∧
      ((a.ReplaceBodyObject lib v v false (-1)).map (fun r => r.Body) = some a.Body ↔
        Index ("\"" ++ v ++ "\"").data a.Body.data = none)) ∧
    (jsonType v = "object" ∨ jsonType v = "array" →
      (a.ReplaceBodyObject lib v v false (-1)).map (fun r => r.Body) = some a.Body) := by
  have hq : ("\"" ++ v ++ "\"").data ≠ [] := by rw [quoted_data]; simp
  have hlen : v.data.length < ("\"" ++ v ++ "\"").data.length := by
    rw [quoted_data]; simp only [List.length_cons, List.length_append, List.length_nil]; omega
  constructor
  · intro ht
    have hbody : (a.ReplaceBodyObject lib v v false (-1)).map (fun r => r.Body) =
        some (String.mk (ReplaceAll a.Body.data ("\"" ++ v ++ "\"").data v.data)) := by
      simp [AttackObject.ReplaceBodyObject, hjson, AttackObject.setBodyJSONParam, ht,
        AttackObject.updateContentLength, strReplace]
    constructor
    · have := congrArg (Option.map String.data) hbody
      simp only [Option.map_map, Option.map_some'] at this
      rw [show (fun r : AttackObject => r.Body.data) = String.data ∘ (fun r => r.Body) from rfl,
        this]
      simp only [ReplaceAll, hq, if_false, replaceLoop_eq, Split]
    · rw [hbody, ← ReplaceAll_unchanged_iff a.Body.data _ v.data hq hlen]
      constructor
      · intro h
        have := congrArg String.data (Option.some.inj h)
        simpa using this
      · intro h
        rw [h]
  · intro ht
    have h1 : jsonType v ≠ "string" := by rcases ht with h | h <;> rw [h] <;> decide
    have h2 : ¬ (jsonType v = "number" ∨ jsonType v = "boolean" ∨ jsonType v = "null") := by
      rcases ht with h | h <;> rw [h] <;> decide
    simp [AttackObject.ReplaceBodyObject, hjson, AttackObject.setBodyJSONParam, h1, h2,
      AttackObject.updateContentLength, strReplace_same]

theorem ReplaceBodyObject_same_witness :
    sampleAttack.bodyIsJSON emptyLibrary = true ∧
    ((jsonType "a" = "string" →
      (sampleAttack.ReplaceBodyObject emptyLibrary "a" "a" false (-1)).map (fun r => r.Body.data) =
        some (List.intercalate "a".data (Split sampleAttack.Body.data ("\"" ++ "a" ++ "\"").data)) ∧
      ((sampleAttack.ReplaceBodyObject emptyLibrary "a" "a" false (-1)).map (fun r => r.Body) =
          some sampleAttack.Body ↔
        Index ("\"" ++ "a" ++ "\"").data sampleAttack.Body.data = none)) ∧
    (jsonType "a" = "object" ∨ jsonType "a" = "array" →
      (sampleAttack.ReplaceBodyObject emptyLibrary "a" "a" false (-1)).map (fun r => r.Body) =
        some sampleAttack.Body)) :=
  ⟨by decide, ReplaceBodyObject_same emptyLibrary sampleAttack "a" (by decide)⟩

/-- C10 (as stated) fails: on the JSON body `{"a":"a"}` the call
`ReplaceBodyObject("a", "a", false, -1)`, for the extracted value `a`, strips the quotes
and leaves `{a:a}`, whatever the library routines answer. -/
theorem ReplaceBodyObject_strips_quotes :
    (⟨"a", 0⟩ : BodyItem) ∈ sampleAttack.BodyValues ∧
    sampleAttack.Body = "\x7b\"a\":\"a\"\x7d" ∧
    sampleAttack.bodyIsJSON emptyLibrary = true ∧
    (sampleAttack.ReplaceBodyObject emptyLibrary "a" "a" false (-1)).map (fun r => r.Body) =
      some "\x7ba:a\x7d" ∧
    (∀ lib : Library, sampleAttack.bodyIsJSON lib = true ∧
      (sampleAttack.ReplaceBodyObject lib "a" "a" false (-1)).map (fun r => r.Body) =
        some "\x7ba:a\x7d") := by
  have hj : ∀ lib : Library, sampleAttack.bodyIsJSON lib = true := by
    intro lib; rfl
  have ht : jsonType "a" = "string" := by decide
  have hs : strReplace sampleAttack.Body ("\"" ++ "a" ++ "\"") "a" (-1) = "\x7ba:a\x7d" := by decide
  have hb : ∀ lib : Library,
      (sampleAttack.ReplaceBodyObject lib "a" "a" false (-1)).map (fun r => r.Body) =
        some "\x7ba:a\x7d" := by
    intro lib
    simp only [AttackObject.ReplaceBodyObject, hj lib, if_true, AttackObject.setBodyJSONParam, ht,
      Option.map_some', AttackObject.updateContentLength, hs]
  exact ⟨by decide, rfl, hj _, hb _, fun lib => ⟨hj lib, hb lib⟩⟩

/-! ### The regular-expression case -/

theorem valueRegexpReplace_examples (lib : Library) :
    valueRegexpReplace lib "\x7b\"a\":1,\"b\":\"1\",\"c\": 1 \x7d" "1" "9" (-1) =
      some "\x7b\"a\":9,\"b\":\"1\",\"c\": 9 \x7d" ∧
    valueRegexpReplace lib "\x7b\"a\":[1,2]\x7d" "1" "9" (-1) = none ∧
    valueRegexpReplace lib "\x7b\"a\":[2,1,1]\x7d" "1" "9" (-1) = some "\x7b\"a\":[2,9,1]\x7d" ∧
    valueRegexpReplace lib "\x7b\"a\":[1],\"b\":\"x1\"\x7d" "1" "9" (-1) =
      some "\x7b\"a\":[[9]],\"b\":\"x[9]\"\x7d" := by
  refine ⟨?_, ?_, ?_, ?_⟩ <;> · rw [valueRegexpReplace, if_pos (by decide)]; decide

/-- C11: the expression compiled from a match is not quoted.  On the body `{"a":[1,2]}`
the value `1` is matched with prefix `[` and suffix `,`; `regexp.MustCompile("[1,")`
panics.  On `{"a":[2,1,1]}` the second `1` stands as a value, shares its delimiter with
the first match and is not replaced. -/
theorem ReplaceBodyObject_value_regexp (lib : Library) :
    jsonType "1" = "number" ∧
    (sampleJSONAttack "\x7b\"a\":[1,2]\x7d").bodyIsJSON lib = true ∧
    (sampleJSONAttack "\x7b\"a\":[1,2]\x7d").ReplaceBodyObject lib "1" "9" false (-1) = none ∧
    ((sampleJSONAttack "\x7b\"a\":[2,1,1]\x7d").ReplaceBodyObject lib "1" "9" false (-1)).map
      (fun r => r.Body) = some "\x7b\"a\":[2,9,1]\x7d" := by
  have ht : jsonType "1" = "number" := by decide
  have h1 := (valueRegexpReplace_examples lib).2.1
  have h2 := (valueRegexpReplace_examples lib).2.2.1
  have hj : ∀ body, (sampleJSONAttack body).bodyIsJSON lib = true := fun _ => rfl
  refine ⟨ht, hj _, ?_, ?_⟩
  · simp only [AttackObject.ReplaceBodyObject, hj, if_true, AttackObject.setBodyJSONParam, ht]
    simp [sampleJSONAttack, h1]
  · simp only [AttackObject.ReplaceBodyObject, hj, if_true, AttackObject.setBodyJSONParam, ht]
    simp [sampleJSONAttack, h2, AttackObject.updateContentLength]

/-! ### Body values -/

theorem appendBodyValues_eq (rest done : List String) (vc : List (String × Int))
    (acc : List BodyItem)
    (hvc : ∀ v, vc.lookup v = if done.count v = 0 then none else some ((done.count v : Int) - 1)) :
    appendBodyValues rest vc acc = acc ++ placements done rest := by
  induction rest generalizing done vc acc with
  | nil => simp [appendBodyValues, placements]
  | cons v rest ih =>
    have hn : (match vc.lookup v with
        | some n => n + 1
        | none => (0 : Int)) = (done.count v : Int) := by
      rw [hvc v]
      by_cases h0 : done.count v = 0
      · simp [h0]
      · simp [h0]
    simp only [appendBodyValues, placements, hn]
    rw [ih (done ++ [v])]
    · simp
    · intro w
      by_cases hw : w = v
      · subst hw
        simp [List.lookup_cons, List.count_append]
      · have hne : (w == v) = false := by simpa using hw
        have hne2 : (v == w) = false := by simpa using (fun h : v = w => hw h.symm)
        simp only [List.lookup_cons, hne, List.count_append, List.count_cons, List.count_nil,
          hne2]
        simpa using hvc w

theorem placements_length (done rest : List String) :
    (placements done rest).length = rest.length := by
  induction rest generalizing done with
  | nil => rfl
  | cons v rest ih => simp [placements, ih]

theorem placements_getElem (done rest : List String) (i : Nat) (h : i < rest.length) :
    (placements done rest)[i]? =
      some ⟨rest[i], ((done ++ rest.take i).count rest[i] : Nat)⟩ := by
  induction rest generalizing done i with
  | nil => simp at h
  | cons v rest ih =>
    cases i with
    | zero => simp [placements]
    | succ j =>
      simp only [List.length_cons, Nat.add_lt_add_iff_right] at h
      simp only [placements, List.getElem?_cons_succ, List.getElem_cons_succ, List.take_succ_cons]
      rw [ih (done ++ [v]) j h]
      simp

theorem count_take_lt (vs : List String) (i j : Nat) (hij : i < j) (hi : i < vs.length)
    (hj : j < vs.length) (h : vs[i] = vs[j]) :
    (vs.take i).count (vs[j]) < (vs.take j).count (vs[j]) := by
  have hsplit : vs.take j = vs.take i ++ (vs.take j).drop i := by
    have := List.take_append_drop i (vs.take j)
    rw [List.take_take, min_eq_left (le_of_lt hij)] at this
    exact this.symm
  rw [hsplit, List.count_append]
  have hmem : vs[j] ∈ (vs.take j).drop i := by
    rw [← h]
    have hlen0 : 0 < ((vs.take j).drop i).length := by
      simp only [List.length_drop, List.length_take]
      omega
    have hget : ((vs.take j).drop i)[0] = vs[i] := by simp
    rw [← hget]
    exact List.getElem_mem hlen0
  have := List.count_pos_iff.2 hmem
  omega

theorem placements_nodup (vs : List String) : (placements [] vs).Nodup := by
  rw [List.nodup_iff_getElem?_ne_getElem?]
  intro i j hij hj
  rw [placements_length] at hj
  have hi : i < vs.length := by omega
  rw [placements_getElem [] vs i hi, placements_getElem [] vs j hj]
  intro heq
  simp only [List.nil_append, Option.some.injEq, BodyItem.mk.injEq, Nat.cast_inj] at heq
  obtain ⟨hv, hc⟩ := heq
  have := count_take_lt vs i j hij hi hj hv
  rw [hv] at hc
  omega

/-- C18: on a request without body values, `extractUpdateableValuesFromBody` turns the
extracted values `vs` into as many items; the `i`-th item holds `vs[i]` and, as
placement, the number of earlier positions holding the same value; the items are
pairwise distinct. -/
theorem extractUpdateableValuesFromBody_placements (lib : Library) (a : AttackObject)
    (vs : List String) (hempty : a.BodyValues = [])
    (hvs : (if lib.isJSON a.Body then some (lib.FlattenJSON a.Body) else lib.queryValues a.Body)
      = some vs) :
    ∃ r, a.extractUpdateableValuesFromBody lib = some r ∧
      r.BodyValues.length = vs.length ∧
      (∀ i (h : i < vs.length),
        r.BodyValues[i]? = some ⟨vs[i], (((vs.take i).count vs[i] : Nat) : Int)⟩) ∧
      r.BodyValues.Nodup := by
  have hb : appendBodyValues vs [] a.BodyValues = placements [] vs := by
    rw [hempty, appendBodyValues_eq vs [] [] [] (by intro v; simp)]
    simp
  refine ⟨{ a with BodyValues := appendBodyValues vs [] a.BodyValues }, ?_, ?_, ?_, ?_⟩
  · simp only [AttackObject.extractUpdateableValuesFromBody, hvs, Option.map_some']
  · simp only [hb, placements_length]
  · intro i h
    simp only [hb]
    rw [placements_getElem [] vs i h]
    simp
  · simp only [hb]
    exact placements_nodup vs

theorem extractUpdateableValuesFromBody_placements_witness :
    ({ sampleAttack with BodyValues := [] } : AttackObject).BodyValues = [] ∧
    (if sampleLibrary.isJSON ({ sampleAttack with BodyValues := [] } : AttackObject).Body then
        some (sampleLibrary.FlattenJSON ({ sampleAttack with BodyValues := [] } : AttackObject).Body)
      else sampleLibrary.queryValues ({ sampleAttack with BodyValues := [] } : AttackObject).Body)
      = some ["a", "a"] ∧
    ∃ r, ({ sampleAttack with BodyValues := [] } : AttackObject).extractUpdateableValuesFromBody
        sampleLibrary = some r ∧
      r.BodyValues.length = (["a", "a"] : List String).length ∧
      (∀ i (h : i < (["a", "a"] : List String).length),
        r.BodyValues[i]? = some ⟨(["a", "a"] : List String)[i],
          ((((["a", "a"] : List String).take i).count (["a", "a"] : List String)[i] : Nat) : Int)⟩) ∧
      r.BodyValues.Nodup :=
  ⟨rfl, by decide,
    extractUpdateableValuesFromBody_placements sampleLibrary { sampleAttack with BodyValues := [] }
      ["a", "a"] rfl (by decide)⟩

/-! ### `SetBody`, `ReplaceBodyObject`, `RestoreBody` -/

theorem SetBody_body (lib : Library) (a a1 : AttackObject) (s : String)
    (h : a.SetBody lib s = some a1) :
    a1.originalBody = a1.Body ∧
    (s = "" ∨ lib.isJSON s = true → a1.Body = s) ∧
    (s ≠ "" → lib.isJSON s = false → lib.urlEncode s = some a1.Body) := by
  unfold AttackObject.SetBody at h
  by_cases hs : s = ""
  · subst hs
    simp only [if_true, Option.some.injEq] at h
    subst h
    simp [AttackObject.setMethod]
  · simp only [hs, if_false] at h
    by_cases hj : lib.isJSON s = true
    · simp only [AttackObject.setMethod, hj, if_true, Option.some_bind,
        AttackObject.extractUpdateableValuesFromBody, AttackObject.setHeader] at h
      cases hv : (some (lib.FlattenJSON s) : Option (List String)) with
      | none => cases hv
      | some vs =>
        simp only [Option.map_some', Option.some.injEq] at h
        subst h
        simp [AttackObject.updateContentLength, hs, hj]
    · have hj' : lib.isJSON s = false := by simpa using hj
      simp only [AttackObject.setMethod, hj', AttackObject.setHeader,
        AttackObject.urlEncodeBody] at h
      cases he : lib.urlEncode s with
      | none => simp [he] at h
      | some enc =>
        simp only [he, Option.map_some', Bool.false_eq_true, if_false, Option.some_bind,
          AttackObject.extractUpdateableValuesFromBody] at h
        cases hv : (if lib.isJSON enc = true then some (lib.FlattenJSON enc)
            else lib.queryValues enc) with
        | none => simp [hv] at h
        | some vs =>
          simp only [hv, Option.map_some', Option.some.injEq] at h
          subst h
          simp [AttackObject.updateContentLength, hs, hj']

theorem ReplaceBodyObject_originalBody (lib : Library) (a r : AttackObject)
    (pattern payload : String) (replaceKey : Bool) (index : Int)
    (h : a.ReplaceBodyObject lib pattern payload replaceKey index = some r) :
    r.originalBody = a.originalBody := by
  unfold AttackObject.ReplaceBodyObject at h
  simp only [Option.map_eq_some'] at h
  obtain ⟨m, hm, rfl⟩ := h
  simp only [AttackObject.updateContentLength]
  split at hm
  · unfold AttackObject.setBodyJSONParam at hm
    simp only at hm
    split at hm
    · cases hm; rfl
    · split at hm
      · simp only [Option.map_eq_some'] at hm
        obtain ⟨b, -, rfl⟩ := hm
        rfl
      · cases hm; rfl
  · simp only [AttackObject.urlDecodeBody, Option.map_map, Option.map_eq_some'] at hm
    obtain ⟨b, -, rfl⟩ := hm
    rfl

theorem replaceAll_originalBody (lib : Library) (ops : List (String × String × Bool × Int))
    (a r : AttackObject) (h : a.replaceAll lib ops = some r) :
    r.originalBody = a.originalBody := by
  induction ops generalizing a with
  | nil =>
    simp only [AttackObject.replaceAll, Option.some.injEq] at h
    rw [h]
  | cons op rest ih =>
    obtain ⟨pattern, payload, replaceKey, index⟩ := op
    simp only [AttackObject.replaceAll, Option.bind_eq_some] at h
    obtain ⟨m, hm, hr⟩ := h
    rw [ih m hr, ReplaceBodyObject_originalBody lib a m pattern payload replaceKey index hm]

theorem RestoreBody_idempotent (a : AttackObject) :
    a.RestoreBody.RestoreBody = a.RestoreBody := by
  simp [AttackObject.RestoreBody, AttackObject.updateContentLength]

/-- C12: when `SetBody(s)` and a sequence of `ReplaceBodyObject` calls have returned,
`RestoreBody` sets the body to the body held right after `SetBody(s)`, which is `s`
when `s` is empty or JSON and its URL-encoded form otherwise; a second `RestoreBody`
changes nothing. -/
theorem RestoreBody_after_replacements (lib : Library) (a a1 a2 : AttackObject) (s : String)
    (ops : List (String × String × Bool × Int))
    (h1 : a.SetBody lib s = some a1) (h2 : a1.replaceAll lib ops = some a2) :
    a2.RestoreBody.Body = a1.Body ∧
    (s = "" ∨ lib.isJSON s = true → a2.RestoreBody.Body = s) ∧
    (s ≠ "" → lib.isJSON s = false → lib.urlEncode s = some a2.RestoreBody.Body) ∧
    a2.RestoreBody.RestoreBody = a2.RestoreBody := by
  obtain ⟨ho, hjs, hen⟩ := SetBody_body lib a a1 s h1
  have hb : a2.RestoreBody.Body = a1.Body := by
    have := replaceAll_originalBody lib ops a1 a2 h2
    simp only [AttackObject.RestoreBody, AttackObject.updateContentLength]
    rw [this, ho]
  refine ⟨hb, ?_, ?_, RestoreBody_idempotent a2⟩
  · intro h; rw [hb]; exact hjs h
  · intro h h'; rw [hb]; exact hen h h'

theorem RestoreBody_after_replacements_witness :
    sampleAttack.SetBody sampleLibrary "\x7b\"a\":\"a\"\x7d" =
      some { sampleAttack with BodyValues := [⟨"a", 0⟩, ⟨"a", 1⟩, ⟨"a", 0⟩, ⟨"a", 1⟩] } ∧
    ({ sampleAttack with BodyValues := [⟨"a", 0⟩, ⟨"a", 1⟩, ⟨"a", 0⟩, ⟨"a", 1⟩] } :
        AttackObject).replaceAll sampleLibrary [("a", "x", false, 0)] =
      some (({ sampleAttack with
        Body := "\x7bx:\"a\"\x7d",
        BodyValues := [⟨"a", 0⟩, ⟨"a", 1⟩, ⟨"a", 0⟩, ⟨"a", 1⟩] } : AttackObject).updateContentLength) ∧
    ((({ sampleAttack with
        Body := "\x7bx:\"a\"\x7d",
        BodyValues := [⟨"a", 0⟩, ⟨"a", 1⟩, ⟨"a", 0⟩, ⟨"a", 1⟩] } :
          AttackObject).updateContentLength).RestoreBody.Body =
      ({ sampleAttack with BodyValues := [⟨"a", 0⟩, ⟨"a", 1⟩, ⟨"a", 0⟩, ⟨"a", 1⟩] } :
        AttackObject).Body ∧
    (("\x7b\"a\":\"a\"\x7d" : String) = "" ∨ sampleLibrary.isJSON "\x7b\"a\":\"a\"\x7d" = true →
      (({ sampleAttack with
        Body := "\x7bx:\"a\"\x7d",
        BodyValues := [⟨"a", 0⟩, ⟨"a", 1⟩, ⟨"a", 0⟩, ⟨"a", 1⟩] } :
          AttackObject).updateContentLength).RestoreBody.Body = "\x7b\"a\":\"a\"\x7d") ∧
    (("\x7b\"a\":\"a\"\x7d" : String) ≠ "" → sampleLibrary.isJSON "\x7b\"a\":\"a\"\x7d" = false →
      sampleLibrary.urlEncode "\x7b\"a\":\"a\"\x7d" =
        some (({ sampleAttack with
          Body := "\x7bx:\"a\"\x7d",
          BodyValues := [⟨"a", 0⟩, ⟨"a", 1⟩, ⟨"a", 0⟩, ⟨"a", 1⟩] } :
            AttackObject).updateContentLength).RestoreBody.Body) ∧
    (({ sampleAttack with
        Body := "\x7bx:\"a\"\x7d",
        BodyValues := [⟨"a", 0⟩, ⟨"a", 1⟩, ⟨"a", 0⟩, ⟨"a", 1⟩] } :
          AttackObject).updateContentLength).RestoreBody.RestoreBody =
      (({ sampleAttack with
        Body := "\x7bx:\"a\"\x7d",
        BodyValues := [⟨"a", 0⟩, ⟨"a", 1⟩, ⟨"a", 0⟩, ⟨"a", 1⟩] } :
          AttackObject).updateContentLength).RestoreBody) :=
  ⟨by decide, by decide,
    RestoreBody_after_replacements sampleLibrary sampleAttack _ _ "\x7b\"a\":\"a\"\x7d"
      [("a", "x", false, 0)] (by decide) (by decide)⟩

/-- Body mutations that end with the assignment of the content length: `SetBody` of a
non-empty body, `ReplaceBodyObject` and `RestoreBody` leave the content length equal to
the byte length of the body. -/
theorem contentLength_after_mutation (lib : Library) (a r : AttackObject) :
    (∀ s, s ≠ "" → a.SetBody lib s = some r →
      r.Request.ContentLength = (r.Body.utf8ByteSize : Int)) ∧
    (∀ pattern payload replaceKey index,
      a.ReplaceBodyObject lib pattern payload replaceKey index = some r →
      r.Request.ContentLength = (r.Body.utf8ByteSize : Int)) ∧
    a.RestoreBody.Request.ContentLength = (a.RestoreBody.Body.utf8ByteSize : Int) := by
  refine ⟨?_, ?_, rfl⟩
  · intro s hs h
    simp only [AttackObject.SetBody, hs, if_false, Option.map_eq_some'] at h
    obtain ⟨m, -, rfl⟩ := h
    rfl
  · intro pattern payload replaceKey index h
    simp only [AttackObject.ReplaceBodyObject, Option.map_eq_some'] at h
    obtain ⟨m, -, rfl⟩ := h
    rfl

/-- C13: `SetBody("")` returns before the content length is assigned.  On the sample
request (body of 9 bytes, content length 9) it empties the body and leaves the content
length at 9. -/
theorem SetBody_empty_contentLength (lib : Library) :
    sampleAttack.Request.ContentLength = (sampleAttack.Body.utf8ByteSize : Int) ∧
    (sampleAttack.SetBody lib "").map (fun r => (r.Body, r.Request.ContentLength)) =
      some ("", 9) ∧
    (("" : String).utf8ByteSize : Int) = 0 := by
  refine ⟨by decide, ?_, by decide⟩
  simp [AttackObject.SetBody, AttackObject.setMethod, sampleAttack]

/-! ### JavaScript injections -/

set_option maxRecDepth 100000 in
theorem JSInjections_examples :
    (JSInjections "\x27").length = 45 ∧
    (JSInjections "\"").length = 24 ∧
    (JSInjections "\x27").lookup ";return true;" =
      some [" && \x27a\x27!=\x27a\x27 && \x27a\x27!=\x27a", ";return false;"] := by
  decide

theorem attacksAppend_lookup_self (m : List (String × List String)) (k v : String) :
    ∃ fs, (attacksAppend m k v).lookup k = some fs ∧ v ∈ fs := by
  induction m with
  | nil => exact ⟨[v], by simp [attacksAppend, List.lookup], by simp⟩
  | cons e rest ih =>
    obtain ⟨k0, vs⟩ := e
    by_cases h : k0 = k
    · subst h
      exact ⟨vs ++ [v], by simp [attacksAppend, List.lookup], by simp⟩
    · obtain ⟨fs, h1, h2⟩ := ih
      have hne : (k == k0) = false := by simpa using (fun e : k = k0 => h e.symm)
      exact ⟨fs, by simp [attacksAppend, h, List.lookup, hne, h1], h2⟩

theorem attacksAppend_lookup_mono (m : List (String × List String)) (k v k2 v2 : String)
    (h : ∃ fs, m.lookup k = some fs ∧ v ∈ fs) :
    ∃ fs, (attacksAppend m k2 v2).lookup k = some fs ∧ v ∈ fs := by
  induction m with
  | nil =>
    obtain ⟨fs, h1, -⟩ := h
    simp [List.lookup] at h1
  | cons e rest ih =>
    obtain ⟨k0, vs⟩ := e
    obtain ⟨fs, h1, h2⟩ := h
    by_cases hk : k = k0
    · subst hk
      simp only [List.lookup, beq_self_eq_true, Option.some.injEq] at h1
      subst h1
      by_cases h0 : k = k2
      · subst h0
        exact ⟨vs ++ [v2], by simp [attacksAppend, List.lookup], by simp [h2]⟩
      · exact ⟨vs, by simp [attacksAppend, h0, List.lookup], h2⟩
    · have hne : (k == k0) = false := by simpa using hk
      simp only [List.lookup, hne] at h1
      obtain ⟨fs2, h3, h4⟩ := ih ⟨fs, h1, h2⟩
      by_cases h0 : k0 = k2
      · subst h0
        exact ⟨fs, by simp [attacksAppend, List.lookup, hne, h1], h2⟩
      · exact ⟨fs2, by simp [attacksAppend, h0, List.lookup, hne, h3], h4⟩

theorem foldl_preserves {α β : Type} (P : β → Prop) (f : β → α → β) (xs : List α)
    (hp : ∀ m x, P m → P (f m x)) (m0 : β) (h0 : P m0) : P (xs.foldl f m0) := by
  induction xs generalizing m0 with
  | nil => exact h0
  | cons x xs ih => exact ih _ (hp _ _ h0)

theorem foldl_establishes {α β : Type} (P : β → Prop) (f : β → α → β) (xs : List α) (x : α)
    (hx : x ∈ xs) (he : ∀ m, P (f m x)) (hp : ∀ m y, P m → P (f m y)) (m0 : β) :
    P (xs.foldl f m0) := by
  induction xs generalizing m0 with
  | nil => simp at hx
  | cons y ys ih =>
    rcases List.mem_cons.1 hx with rfl | hmem
    · exact foldl_preserves P f ys hp _ (he m0)
    · exact ih hmem _

/-- C16 (amended): a false fragment is listed under the true fragments built with the
same prefix and the same suffix.  For every prefix `p`, suffix `s`, true string `T` and
false string `F` of the tables, the fragment `p + T + s` (apostrophes replaced by the
quote) is a key of `JSInjections(q)` and `p + F + s` is a member of its list. -/
theorem JSInjections_pairs (q p s T F : String) (hp : p ∈ JSPrefixes) (hs : s ∈ JSSuffixes)
    (hT : T ∈ JSTrueStrings) (hF : F ∈ JSFalseStrings) :
    ∃ fs, (JSInjections q).lookup (jsFragment q p T s) = some fs ∧ jsFragment q p F s ∈ fs := by
  have hmono : ∀ (m : List (String × List String)) (k2 v2 : String),
      hasPair (jsFragment q p T s) (jsFragment q p F s) m →
      hasPair (jsFragment q p T s) (jsFragment q p F s) (attacksAppend m k2 v2) :=
    fun m k2 v2 h => attacksAppend_lookup_mono m _ _ k2 v2 h
  show hasPair (jsFragment q p T s) (jsFragment q p F s) (JSInjections q)
  unfold JSInjections
  refine foldl_establishes (hasPair (jsFragment q p T s) (jsFragment q p F s)) _ JSPrefixes p hp
    ?_ ?_ []
  · intro m
    refine foldl_establishes (hasPair (jsFragment q p T s) (jsFragment q p F s)) _ JSSuffixes s hs
      ?_ ?_ m
    · intro m
      refine foldl_establishes (hasPair (jsFragment q p T s) (jsFragment q p F s)) _
        JSTrueStrings T hT ?_ ?_ m
      · intro m
        refine foldl_establishes (hasPair (jsFragment q p T s) (jsFragment q p F s)) _
          JSFalseStrings F hF ?_ ?_ m
        · intro m
          exact attacksAppend_lookup_self _ _ _
        · intro m y h
          exact hmono _ _ _ h
      · intro m y h
        refine foldl_preserves _ _ JSFalseStrings ?_ m h
        intro m z h
        exact hmono _ _ _ h
    · intro m y h
      refine foldl_preserves _ _ JSTrueStrings ?_ m h
      intro m z h
      refine foldl_preserves _ _ JSFalseStrings ?_ m h
      intro m w h
      exact hmono _ _ _ h
  · intro m y h
    refine foldl_preserves _ _ JSSuffixes ?_ m h
    intro m z h
    refine foldl_preserves _ _ JSTrueStrings ?_ m h
    intro m w h
    refine foldl_preserves _ _ JSFalseStrings ?_ m h
    intro m u h
    exact hmono _ _ _ h

theorem JSInjections_pairs_witness :
    ("\x27" ∈ JSPrefixes ∧ "//" ∈ JSSuffixes ∧ ";return true;" ∈ JSTrueStrings ∧
      ";return false;" ∈ JSFalseStrings) ∧
    ∃ fs, (JSInjections "\"").lookup (jsFragment "\"" "\x27" ";return true;" "//") = some fs ∧
      jsFragment "\"" "\x27" ";return false;" "//" ∈ fs :=
  ⟨by decide,
    JSInjections_pairs "\"" "\x27" "//" ";return true;" ";return false;"
      (by decide) (by decide) (by decide) (by decide)⟩

set_option maxRecDepth 100000 in
/-- C16 (as stated) fails: for the quote `'` the true fragment `;return true;` (empty
prefix and suffix) is a key, and the false fragment `';return false;` (prefix `'`) is
not in its list. -/
theorem JSInjections_not_cartesian :
    ("" ∈ JSPrefixes ∧ "\x27" ∈ JSPrefixes ∧ "" ∈ JSSuffixes ∧
      ";return true;" ∈ JSTrueStrings ∧ ";return false;" ∈ JSFalseStrings) ∧
    jsFragment "\x27" "" ";return true;" "" = ";return true;" ∧
    jsFragment "\x27" "\x27" ";return false;" "" = "\x27;return false;" ∧
    (JSInjections "\x27").lookup ";return true;" =
      some [" && \x27a\x27!=\x27a\x27 && \x27a\x27!=\x27a", ";return false;"] ∧
    "\x27;return false;" ∉ [" && \x27a\x27!=\x27a\x27 && \x27a\x27!=\x27a", ";return false;"] := by
  decide

set_option maxRecDepth 100000 in
/-- C17 (as stated) fails: for the quote `'` the key built with the prefix `"` keeps its
double quote. -/
theorem JSInjections_single_keeps_double :
    ((JSInjections "\x27").lookup "\" && \x27a\x27==\x27a\x27 && \x27a\x27==\x27a").isSome = true ∧
    '"' ∈ ("\" && \x27a\x27==\x27a\x27 && \x27a\x27==\x27a" : String).data ∧
    ('"' : Char) ≠ '\x27' := by
  decide

set_option maxRecDepth 100000 in
theorem JSInjections_double_all :
    (JSInjections "\"").all (fun e => !e.1.data.contains '\x27') = true := by
  decide

/-- C17 (amended): no key of `JSInjections(")` contains the character `'`. -/
theorem JSInjections_double_no_single (e : String × List String)
    (he : e ∈ JSInjections "\"") : '\x27' ∉ e.1.data := by
  have h := List.all_eq_true.1 JSInjections_double_all e he
  intro hc
  have : e.1.data.contains '\x27' = true := by simpa using hc
  rw [this] at h
  exact Bool.noConfusion h

set_option maxRecDepth 100000 in
theorem JSInjections_double_no_single_witness :
    ((";return true;", [" && \"a\"!=\"a\" && \"a\"!=\"a", ";return false;"]) :
        String × List String) ∈ JSInjections "\"" ∧
    '\x27' ∉ ((";return true;", [" && \"a\"!=\"a\" && \"a\"!=\"a", ";return false;"]) :
        String × List String).1.data :=
  ⟨by decide, JSInjections_double_no_single _ (by decide)⟩

/-! ### Construction and copy -/

theorem lookup_filter_ne (h : List (String × List String)) (k k2 : String) (hne : k ≠ k2) :
    (h.filter (fun e => e.1 != k2)).lookup k = h.lookup k := by
  induction h with
  | nil => rfl
  | cons e rest ih =>
    obtain ⟨k0, vs⟩ := e
    by_cases h0 : k0 = k2
    · subst h0
      have : (k == k0) = false := by simpa using hne
      simp [List.filter, List.lookup, this, ih]
    · have hb : (k0 != k2) = true := by simpa using h0
      simp only [List.filter, hb, List.lookup]
      cases hk : (k == k0) with
      | true => rfl
      | false => exact ih

theorem headerGet_headerSet_self (h : List (String × List String)) (k v : String) :
    headerGet (headerSet h k v) k = v := by
  simp [headerGet, headerSet, List.lookup]

theorem headerGet_headerSet_ne (h : List (String × List String)) (k k2 v : String)
    (hne : k ≠ k2) : headerGet (headerSet h k2 v) k = headerGet h k := by
  have : (k == k2) = false := by simpa using hne
  simp only [headerGet, headerSet, List.lookup, this, lookup_filter_ne h k k2 hne]

theorem finishAttackObject_contentType (lib : Library) (a r : AttackObject)
    (options : ScanOptions) (hdata : options.RequestData ≠ "")
    (h : finishAttackObject lib a options = some r) :
    headerGet r.Request.Header "Content-Type" = "application/json" := by
  simp only [finishAttackObject, hdata, ne_eq, not_false_eq_true, if_true, Option.map_map,
    Option.map_eq_some'] at h
  obtain ⟨b, -, rfl⟩ := h
  simp only [Function.comp, AttackObject.setHeader]
  rw [headerGet_headerSet_ne _ _ _ _ (by decide), headerGet_headerSet_ne _ _ _ _ (by decide),
    headerGet_headerSet_self]

/-- C14 (amended): for every non-empty RequestData, the request built by
`NewAttackObject` has Content-Type `application/json`, whether or not RequestData
parses as JSON. -/
theorem NewAttackObject_contentType (lib : Library) (options : ScanOptions) (r : AttackObject)
    (hdata : options.RequestData ≠ "")
    (h : NewAttackObject lib options = some (Except.ok r)) :
    headerGet r.Request.Header "Content-Type" = "application/json" := by
  unfold NewAttackObject at h
  split at h
  · split at h
    · cases h
    · simp only [Option.map_eq_some', Except.ok.injEq] at h
      obtain ⟨b, hb, rfl⟩ := h
      refine finishAttackObject_contentType lib _ _ _ ?_ hb
      split
      · exact hdata
      · exact hdata
  · split at h
    · dsimp only at h
      generalize (if options.RequireHTTPS = true then requireHTTPSTarget options.Target
        else some options.Target) = tgt at h
      cases tgt with
      | none => cases h
      | some target =>
        dsimp only at h
        cases hu : lib.parseURL target with
        | none => rw [hu] at h; cases h
        | some u =>
          rw [hu] at h
          simp only [Option.map_eq_some', Except.ok.injEq] at h
          obtain ⟨b, hb, rfl⟩ := h
          exact finishAttackObject_contentType lib _ _ _ (by exact hdata) hb
    · cases h

theorem NewAttackObject_contentType_witness :
    sampleOptions.RequestData ≠ "" ∧
    NewAttackObject sampleLibrary sampleOptions = some (Except.ok sampleBuilt) ∧
    headerGet sampleBuilt.Request.Header "Content-Type" = "application/json" :=
  ⟨by decide, rfl,
    NewAttackObject_contentType sampleLibrary sampleOptions sampleBuilt (by decide) rfl⟩

/-- C14 (as stated) fails: the form body `a=b` does not parse as JSON, and the request
built for it carries Content-Type `application/json`. -/
theorem NewAttackObject_form_contentType :
    sampleLibrary.isJSON "a=b" = false ∧
    builtContentType (NewAttackObject sampleLibrary { sampleOptions with RequestData := "a=b" }) =
      some "application/json" ∧
    ("application/json" : String) ≠ "application/x-www-form-urlencoded" := by
  refine ⟨by decide, ?_, by decide⟩
  rfl

/-- What `Copy` takes from the request and what it takes from the request rebuilt from
the options: method, headers, body, original body, ignore-cache flag and raw query are
those of the request; the URL before the query is the rebuilt one, and the body values
are the rebuilt ones overwritten by `copy`. -/
theorem Copy_fields (lib : Library) (a c : AttackObject) (h : a.Copy lib = some c) :
    c.Request.Method = a.Request.Method ∧ c.Request.Header = a.Request.Header ∧
    c.Body = a.Body ∧ c.originalBody = a.originalBody ∧ c.IgnoreCache = a.IgnoreCache ∧
    c.Request.URL.RawQuery = a.Request.URL.RawQuery ∧
    ∃ fresh, NewAttackObject lib a.Options = some (Except.ok fresh) ∧
      c.Request.URL.Base = fresh.Request.URL.Base ∧
      c.BodyValues = copySlice fresh.BodyValues a.BodyValues ∧
      c.BodyValues.length = fresh.BodyValues.length := by
  unfold AttackObject.Copy at h
  split at h
  · rename_i fresh hfresh
    simp only [Option.some.injEq] at h
    subst h
    refine ⟨rfl, rfl, rfl, rfl, rfl, rfl, fresh, hfresh, rfl, rfl, ?_⟩
    simp only [copySlice, List.length_append, List.length_take, List.length_drop]
    omega
  · cases h

/-- C15: `Copy` rebuilds the request from its options and overwrites the rebuilt body
values with `copy`, which copies no more elements than the rebuilt list holds.  After
`SetBody` of a second body the request holds four body values and its copy two; after
`SetURL` the copy has the URL of the options. -/
theorem Copy_loses_bodyValues :
    NewAttackObject sampleLibrary sampleOptions = some (Except.ok sampleBuilt) ∧
    (sampleBuilt.SetBody sampleLibrary "\x7b\"b\":\"c\"\x7d").map (fun r => r.BodyValues) =
      some [⟨"a", 0⟩, ⟨"a", 1⟩, ⟨"b", 0⟩, ⟨"c", 0⟩] ∧
    ((sampleBuilt.SetBody sampleLibrary "\x7b\"b\":\"c\"\x7d").bind
        (fun r => r.Copy sampleLibrary)).map (fun c => c.BodyValues) =
      some [⟨"a", 0⟩, ⟨"a", 1⟩] ∧
    (sampleBuilt.SetURL sampleLibrary "http://127.0.0.1:8080/admin").map
        (fun r => r.Request.URL.Base) = some "http://127.0.0.1:8080/admin" ∧
    ((sampleBuilt.SetURL sampleLibrary "http://127.0.0.1:8080/admin").bind
        (fun r => r.Copy sampleLibrary)).map (fun c => c.Request.URL.Base) =
      some "http://127.0.0.1:8080/users" := by
  refine ⟨rfl, ?_, ?_, rfl, ?_⟩
  · decide
  · rfl
  · rfl

/-! ### Query parameters -/

theorem valuesGet_del (q : Values) (x key : String) :
    valuesGet (valuesDel q x) key = if key = x then [] else valuesGet q key := by
  unfold valuesGet valuesDel
  by_cases h : key = x
  · subst h
    simp only [if_true]
    induction q with
    | nil => rfl
    | cons e rest ih =>
      obtain ⟨k0, vs⟩ := e
      by_cases h0 : k0 = key
      · subst h0
        simpa [List.filter] using ih
      · have hb : (k0 != key) = true := by simpa using h0
        have hne : (key == k0) = false := by simpa using (fun e : key = k0 => h0 e.symm)
        simpa [List.filter, hb, List.lookup, hne] using ih
  · rw [if_neg h, lookup_filter_ne q key x h]

theorem valuesGet_add (q : Values) (x v key : String) :
    valuesGet (valuesAdd q x v) key =
      if key = x then valuesGet q x ++ [v] else valuesGet q key := by
  unfold valuesGet
  induction q with
  | nil =>
    by_cases h : key = x
    · subst h; simp [valuesAdd, List.lookup]
    · have hne : (key == x) = false := by simpa using h
      simp [valuesAdd, List.lookup, hne, h]
  | cons e rest ih =>
    obtain ⟨k0, vs⟩ := e
    by_cases h0 : k0 = x
    · subst h0
      by_cases h : key = k0
      · subst h; simp [valuesAdd, List.lookup]
      · have hne : (key == k0) = false := by simpa using h
        simp [valuesAdd, List.lookup, hne, h]
    · have hx : (x == k0) = false := by simpa using (fun e : x = k0 => h0 e.symm)
      simp only [valuesAdd, h0, if_false, List.lookup]
      by_cases h : key = x
      · subst h
        simp only [hx, if_true]
        simpa using ih
      · rw [if_neg h] at ih ⊢
        cases hk : (key == k0) with
        | true => rfl
        | false => simpa using ih

theorem valuesSetFirst_spec (q : Values) (k v inj : String) (rest : List String)
    (h : valuesGet q k = v :: rest) :
    ∃ q1, valuesSetFirst q k inj = some q1 ∧ valuesSetFirst q1 k v = some q ∧
      ∀ key, key ≠ k → valuesGet q1 key = valuesGet q key := by
  induction q with
  | nil => simp [valuesGet, List.lookup] at h
  | cons e tl ih =>
    obtain ⟨k0, vs⟩ := e
    by_cases h0 : k0 = k
    · subst h0
      simp only [valuesGet, List.lookup, beq_self_eq_true, Option.getD_some] at h
      subst h
      refine ⟨(k0, inj :: rest) :: tl, by simp [valuesSetFirst], by simp [valuesSetFirst], ?_⟩
      intro key hkey
      have hne : (key == k0) = false := by simpa using hkey
      simp [valuesGet, List.lookup, hne]
    · have hne : (k == k0) = false := by simpa using (fun e : k = k0 => h0 e.symm)
      have h' : valuesGet tl k = v :: rest := by
        simpa [valuesGet, List.lookup, hne] using h
      obtain ⟨q1, h1, h2, h3⟩ := ih h'
      refine ⟨(k0, vs) :: q1, by simp [valuesSetFirst, h0, h1], by simp [valuesSetFirst, h0, h2], ?_⟩
      intro key hkey
      have := h3 key hkey
      simp only [valuesGet, List.lookup] at this ⊢
      cases hk : (key == k0) with
      | true => rfl
      | false => simpa using this

/-- The cases in which probe and reset of `iterateGetInjections` give back the query
multimap.  On a multimap `q` in which `k` has first value `v`, the probe
`SetQueryParam(k, injection)` followed by `SetQueryParam(k, v)` gives back `q`, and the
probe changes no other key.  With `injectKeys`, when `v` is the only value of `k` and
`k + injection` is no other key of `q`, `ReplaceQueryParam(k, k+injection, v)` followed
by `ReplaceQueryParam(k+injection, k, v)` gives back the value lists of `q`, and the
probe changes no key other than `k` and `k + injection`. -/
theorem probe_restore_query (q : Values) (k v injection : String) :
    (∀ rest, valuesGet q k = v :: rest →
      ∃ q1, probeQuery false q k v injection = some q1 ∧
        restoreQuery false q1 k v injection = some q ∧
        ∀ key, key ≠ k → valuesGet q1 key = valuesGet q key) ∧
    (valuesGet q k = [v] → (injection = "" ∨ valuesGet q (k ++ injection) = []) →
      ∃ q1 q2, probeQuery true q k v injection = some q1 ∧
        restoreQuery true q1 k v injection = some q2 ∧
        (∀ key, valuesGet q2 key = valuesGet q key) ∧
        ∀ key, key ≠ k → key ≠ k ++ injection → valuesGet q1 key = valuesGet q key) := by
  constructor
  · intro rest h
    simpa [probeQuery, restoreQuery] using valuesSetFirst_spec q k v injection rest h
  · intro hk hinj
    have hcase : k ++ injection = k ∨ valuesGet q (k ++ injection) = [] := by
      rcases hinj with h | h
      · left; subst h; simp
      · right; exact h
    simp only [probeQuery, restoreQuery, if_true]
    generalize k ++ injection = k2 at hcase
    refine ⟨_, _, rfl, rfl, ?_, ?_⟩
    · intro key
      simp only [valuesGet_add, valuesGet_del]
      by_cases h3 : k = k2
      · subst h3
        by_cases h1 : key = k
        · subst h1; simp [hk]
        · simp [h1]
      · have h3' : ¬ k2 = k := fun e => h3 e.symm
        have hget : valuesGet q k2 = [] := by
          rcases hcase with hc | hc
          · exact absurd hc h3'
          · exact hc
        by_cases h1 : key = k
        · subst h1; simp [h3, hk]
        · by_cases h2 : key = k2
          · subst h2; simp [h1, hget]
          · simp [h1, h2]
    · intro key h1 h2
      simp only [valuesGet_add, valuesGet_del]
      simp [h1, h2]

theorem probe_restore_query_witness :
    (∃ q1, probeQuery false [("a", ["1", "2"]), ("b", ["3"])] "a" "1" "\x27" = some q1 ∧
      restoreQuery false q1 "a" "1" "\x27" = some [("a", ["1", "2"]), ("b", ["3"])] ∧
      ∀ key, key ≠ "a" →
        valuesGet q1 key = valuesGet [("a", ["1", "2"]), ("b", ["3"])] key) ∧
    (∃ q1 q2, probeQuery true [("a", ["1"]), ("b", ["3"])] "a" "1" "[$]" = some q1 ∧
      restoreQuery true q1 "a" "1" "[$]" = some q2 ∧
      (∀ key, valuesGet q2 key = valuesGet [("a", ["1"]), ("b", ["3"])] key) ∧
      ∀ key, key ≠ "a" → key ≠ "a" ++ "[$]" →
        valuesGet q1 key = valuesGet [("a", ["1"]), ("b", ["3"])] key) :=
  ⟨(probe_restore_query [("a", ["1", "2"]), ("b", ["3"])] "a" "1" "\x27").1 ["2"] rfl,
    (probe_restore_query [("a", ["1"]), ("b", ["3"])] "a" "1" "[$]").2 rfl (Or.inr rfl)⟩

/-- C19: with `injectKeys` the reset does not restore the query.  On the query
`a=1&a=2` the probe for the key `a` (first value `1`) and the injection `[$]`,
followed by the reset `ReplaceQueryParam(k+injection, k, v)`, leaves `a=1`; on
`a=1&a[$]=x` it also removes the parameter `a[$]`. -/
theorem probe_restore_drops_values :
    valuesGet [("a", ["1", "2"])] "a" = "1" :: ["2"] ∧
    (probeQuery true [("a", ["1", "2"])] "a" "1" "[$]").bind
        (fun q1 => restoreQuery true q1 "a" "1" "[$]") = some [("a", ["1"])] ∧
    valuesGet [("a", ["1"])] "a" ≠ valuesGet [("a", ["1", "2"])] "a" ∧
    (probeQuery true [("a", ["1"]), ("a[$]", ["x"])] "a" "1" "[$]").bind
        (fun q1 => restoreQuery true q1 "a" "1" "[$]") = some [("a", ["1"])] ∧
    valuesGet [("a", ["1"])] "a[$]" ≠ valuesGet [("a", ["1"]), ("a[$]", ["x"])] "a[$]" := by
  decide

end NoSQLi
